import Mathlib

/-!
Verification of the itack git-native issue tracker core.

Shallow embedding of the storage, codec, git-object and ledger layers of the
repository (`src/storage/db.rs`, `src/storage/markdown.rs`, `src/core/git.rs`,
`src/core/status.rs`, `src/core/issue.rs`, `src/commands/claim.rs`).

Modelling conventions:
- Rust strings are modelled as `List Char` (`Str`); all the sliced patterns in
  the embedded code are ASCII, so char positions coincide with the byte
  positions the Rust code manipulates.
- `chrono::DateTime<Utc>` values are modelled by their RFC-3339 text, so
  `to_rfc3339` is the identity.
- The SQLite tables of the ledger are modelled as in-memory lists; a
  transaction that returns an error without committing is modelled by an
  `Except` value carrying no successor state.
- git blobs/trees/commits are modelled by an explicit object arena; a commit
  oid is its arena index and a tree identity is structural equality of the
  tree value, matching content addressing for the operations embedded here
  (tree updates preserve entry order).
-/

set_option maxHeartbeats 1000000

namespace Itack

/-! ## Ledger (`src/storage/db.rs`)

The SQLite state is two tables: `claims (issue_id PRIMARY KEY, assignee,
claimed_at)` modelled as a row list, and `state.next_issue_id`. -/

/-! ## Record codec (`src/storage/markdown.rs`)

`format_issue` / `parse_issue` delegate the header block to `serde_yaml`
(an external crate). The YAML round trip for the `Issue` struct is modelled
here: `yamlEncode` models `serde_yaml::to_string` (serde_yaml 0.9 block style:
one `key: value` line per present field in struct declaration order, block
sequences as unindented `- item` lines, no document marker), and `yamlDecode`
models `serde_yaml::from_str::<Issue>` on such documents (blank lines skipped,
unknown keys ignored, missing required field or malformed line is an error). -/

/-! ## Git object model (`src/core/git.rs`)

Blobs and trees form an inductive object type; the repository is an arena of
commits (a commit oid is its arena index) plus the branch reference map. -/

/-- Characters of a string: the model of Rust `String` / `&str` contents. -/
abbrev Str := List Char

/-- `String.data` as a conversion helper for concrete literals. -/
def chars (s : String) : Str := s.data

/-- Model of the `ItackError` enum (`src/error.rs`). Only the variants built by
the embedded operations are included; `branchNotFound` and `mergeConflict` are
the variants constructed in `src/core/git.rs`, and `yamlError` stands for the
`Yaml` variant wrapping a `serde_yaml` parse error. -/
inductive ItackError where
  | issueNotFound (id : Nat)
  | alreadyClaimed (id : Nat) (assignee : Str)
  | notClaimed (id : Nat)
  | branchNotFound (branch : Str)
  | mergeConflict (source target : Str)
  | invalidMarkdown (msg : String)
  | yamlError
  | other (msg : String)
deriving DecidableEq

/-- The `Status` enum (`src/core/status.rs`); `open'` renders the Rust `Open`
variant (`open` is a Lean keyword). -/
inductive Status where
  | open'
  | inProgress
  | done
  | wontFix
deriving DecidableEq

/-- `Status::sort_priority` (`src/core/status.rs` lines 23-31):
in-progress=0, open=1, done=2, wontfix=3. -/
def Status.sort_priority : Status → Nat
  | .inProgress => 0
  | .open' => 1
  | .done => 2
  | .wontFix => 3

/-- The `Issue` struct (`src/core/issue.rs`), fields in the declared
(alphabetical) order. `created` is the RFC-3339 text of the timestamp. -/
structure Issue where
  assignee : Option Str
  branch : Option Str
  created : Str
  depends_on : List Nat
  epic : Option Str
  id : Nat
  session : Option Str
  status : Status
deriving DecidableEq

/-- The ledger tables of `Database`. -/
structure Ledger where
  claims : List (Nat × Str × Str)
  next_issue_id : Nat
deriving DecidableEq

/-- `SELECT assignee FROM claims WHERE issue_id = ?1` (first matching row). -/
def lookupClaim (rows : List (Nat × Str × Str)) (id : Nat) : Option Str :=
  match rows with
  | [] => none
  | (i, a, _) :: tl => if i = id then some a else lookupClaim tl id

/-- `Database::claim` (`src/storage/db.rs` lines 242-270): inside an IMMEDIATE
transaction, select any existing claim row for the id; if present fail with
`AlreadyClaimed` (the transaction commits nothing); else insert the row. -/
def Database.claim (db : Ledger) (issue_id : Nat) (assignee : Str) (now : Str) :
    Except ItackError Ledger :=
  match lookupClaim db.claims issue_id with
  | some existing => .error (.alreadyClaimed issue_id existing)
  | none => .ok { db with claims := db.claims ++ [(issue_id, assignee, now)] }

/-- `Database::release` (`src/storage/db.rs` lines 273-283). -/
def Database.release (db : Ledger) (issue_id : Nat) : Except ItackError Ledger :=
  if (db.claims.filter (fun r => r.1 = issue_id)).length = 0 then
    .error (.notClaimed issue_id)
  else .ok { db with claims := db.claims.filter (fun r => r.1 ≠ issue_id) }

/-- `Database::next_issue_id` (`src/storage/db.rs` lines 222-229): the single
SQL statement `UPDATE state SET next_issue_id = next_issue_id + 1 RETURNING
next_issue_id - 1` — increment and return the pre-increment value in one
indivisible step. -/
def Database.nextIssueId (db : Ledger) : Nat × Ledger :=
  (db.next_issue_id, { db with next_issue_id := db.next_issue_id + 1 })

/-- `n` sequential `Database::next_issue_id` calls; returns the allocated ids
in order together with the final ledger. -/
def allocIds : Ledger → Nat → List Nat × Ledger
  | db, 0 => ([], db)
  | db, n + 1 =>
    let p := Database.nextIssueId db
    let q := allocIds p.2 n
    (p.1 :: q.1, q.2)

/-- Decimal digit character. -/
def digitChar (d : Nat) : Char := Char.ofNat (48 + d)

/-- Big-endian digit characters of a positive number, with recursion fuel. -/
def natStrAux : Nat → Nat → Str
  | 0, _ => []
  | fuel + 1, n => if n = 0 then [] else natStrAux fuel (n / 10) ++ [digitChar (n % 10)]

/-- Decimal rendering of a `u32`, the serde serialization of `id` and of
`depends_on` entries. -/
def natStr (n : Nat) : Str :=
  if n = 0 then ['0'] else natStrAux (n + 1) n

/-- Accumulating decimal parse. -/
def parseNatAux : Str → Nat → Option Nat
  | [], acc => some acc
  | c :: tl, acc => if c.isDigit then parseNatAux tl (acc * 10 + (c.toNat - 48)) else none

/-- Decimal parse of a nonempty digit string (serde deserialization of `u32`). -/
def parseNat (s : Str) : Option Nat :=
  if s = [] then none else parseNatAux s 0

/-- serde serialization of `Status` (`rename_all = "kebab-case"`). -/
def statusStr : Status → Str
  | .open' => chars ("open")
  | .inProgress => chars ("in-progress")
  | .done => chars ("done")
  | .wontFix => chars ("wont-fix")

/-- serde deserialization of `Status`: exactly the four kebab-case tokens. -/
def statusOfStr (v : Str) : Option Status :=
  if v = chars ("open") then some .open'
  else if v = chars ("in-progress") then some .inProgress
  else if v = chars ("done") then some .done
  else if v = chars ("wont-fix") then some .wontFix
  else none

/-- One `key: value` header line. -/
def lineKV (key : String) (v : Str) : Str := key.data ++ ':' :: ' ' :: v ++ ['\n']

/-- Header line of an optional field: present fields only
(`skip_serializing_if = "Option::is_none"`). -/
def optLineKV (key : String) : Option Str → Str
  | none => []
  | some v => lineKV key v

/-- One block-sequence item line `- d`. -/
def depItemLine (d : Nat) : Str := '-' :: ' ' :: natStr d ++ ['\n']

/-- The `depends_on` block: absent when the list is empty
(`skip_serializing_if = "Vec::is_empty"`). -/
def depLines : List Nat → Str
  | [] => []
  | d :: ds => chars ("depends_on:") ++ '\n' :: (d :: ds).flatMap depItemLine

/-- Model of `serde_yaml::to_string(&issue)`: fields in struct declaration
(alphabetical) order. -/
def yamlEncode (i : Issue) : Str :=
  optLineKV ("assignee") i.assignee ++ optLineKV ("branch") i.branch ++
  lineKV ("created") i.created ++ depLines i.depends_on ++
  optLineKV ("epic") i.epic ++ lineKV ("id") (natStr i.id) ++
  optLineKV ("session") i.session ++ lineKV ("status") (statusStr i.status)

/-- Split into lines at each newline; a trailing fragment without a final
newline forms a last line. -/
def splitLines : Str → List Str
  | [] => []
  | c :: tl =>
    if c = '\n' then [] :: splitLines tl
    else
      match splitLines tl with
      | [] => [[c]]
      | l :: ls => (c :: l) :: ls

/-- Split a header line at the first `: ` into key and value. -/
def splitKV (l : Str) : Option (Str × Str) :=
  match l.dropWhile (· ≠ ':') with
  | ':' :: ' ' :: v => some (l.takeWhile (· ≠ ':'), v)
  | _ => none

/-- Partially decoded `Issue` during YAML deserialization. -/
structure PartIssue where
  assignee : Option Str := none
  branch : Option Str := none
  created : Option Str := none
  depends_on : List Nat := []
  epic : Option Str := none
  id : Option Nat := none
  session : Option Str := none
  status : Option Status := none

/-- Record one key/value pair; unknown keys are ignored (serde default). -/
def applyKV (p : PartIssue) (k v : Str) : Option PartIssue :=
  if k = chars ("assignee") then some { p with assignee := some v }
  else if k = chars ("branch") then some { p with branch := some v }
  else if k = chars ("created") then some { p with created := some v }
  else if k = chars ("epic") then some { p with epic := some v }
  else if k = chars ("id") then (parseNat v).map (fun n => { p with id := some n })
  else if k = chars ("session") then (some { p with session := some v })
  else if k = chars ("status") then (statusOfStr v).map (fun s => { p with status := some s })
  else some p

/-- Require the mandatory fields `created`, `id`, `status`; optional fields
default to absent / empty (serde `default`). -/
def finalizePart (p : PartIssue) : Option Issue :=
  match p.created, p.id, p.status with
  | some c, some n, some s =>
    some { assignee := p.assignee, branch := p.branch, created := c,
           depends_on := p.depends_on, epic := p.epic, id := n,
           session := p.session, status := s }
  | _, _, _ => none

/-- Line-by-line YAML document decoding; the flag records whether the previous
lines were inside the `depends_on` block sequence. -/
def decodeLines : List Str → PartIssue → Bool → Option Issue
  | [], p, _ => finalizePart p
  | l :: rest, p, inSeq =>
    if l = [] then decodeLines rest p inSeq
    else if l = chars ("depends_on:") then
      decodeLines rest { p with depends_on := [] } true
    else if inSeq && (chars ("- ")).isPrefixOf l then
      match parseNat (l.drop 2) with
      | some d => decodeLines rest { p with depends_on := p.depends_on ++ [d] } true
      | none => none
    else
      match splitKV l with
      | some kv =>
        match applyKV p kv.1 kv.2 with
        | some p' => decodeLines rest p' false
        | none => none
      | none => none

/-- Model of `serde_yaml::from_str::<Issue>`. -/
def yamlDecode (s : Str) : Option Issue := decodeLines (splitLines s) {} false

/-- The front matter delimiter `---`. -/
def DELIM : Str := ['-', '-', '-']

/-- Rust `str::trim_start`. -/
def trimStart (s : Str) : Str := s.dropWhile Char.isWhitespace

/-- Leftmost occurrence of `pat` in the haystack (Rust `str::find`). -/
def findSub (pat : Str) : Str → Option Nat
  | [] => if pat.isPrefixOf ([] : Str) then some 0 else none
  | c :: tl =>
    if pat.isPrefixOf (c :: tl) then some 0
    else (findSub pat tl).map (· + 1)

/-- `extract_title_heading` (`src/storage/markdown.rs` lines 39-51). -/
def extractTitleHeading (body : Str) : Except ItackError (Str × Str) :=
  if (chars ("# ")).isPrefixOf body then
    let rest := body.drop 2
    let title := rest.takeWhile (· ≠ '\n')
    let remaining := (rest.dropWhile (· ≠ '\n')).dropWhile (· = '\n')
    .ok (title, remaining)
  else .error (.invalidMarkdown ("Missing title heading (# Title)"))

/-- `parse_issue` (`src/storage/markdown.rs` lines 10-36). -/
def parseIssue (content0 : Str) : Except ItackError (Issue × Str × Str) :=
  let content := trimStart content0
  if DELIM.isPrefixOf content then
    let afterFirst := content.drop 3
    match findSub DELIM afterFirst with
    | none => .error (.invalidMarkdown ("Unclosed YAML front matter"))
    | some endPos =>
      let yamlContent := afterFirst.take endPos
      let body := (content.drop (3 + endPos + 3)).dropWhile (· = '\n')
      match yamlDecode yamlContent with
      | none => .error .yamlError
      | some issue =>
        match extractTitleHeading body with
        | .ok tr => .ok (issue, tr.1, tr.2)
        | .error e => .error e
  else .error (.invalidMarkdown ("Missing YAML front matter"))

/-- `format_issue` (`src/storage/markdown.rs` lines 55-76): front matter, blank
line, `# title` heading, blank line and body (with a guaranteed trailing
newline) when the body is nonempty. -/
def formatIssue (issue : Issue) (title body : Str) : Str :=
  chars ("---") ++ '\n' :: yamlEncode issue ++ chars ("---") ++
  '\n' :: '\n' :: '#' :: ' ' :: title ++ '\n' ::
  (if body = [] then []
   else '\n' :: body ++ (if body.getLast? = some '\n' then [] else ['\n']))

/-- A git object: a blob with byte content, or a tree of named entries. -/
inductive GObj where
  | blob (content : Str)
  | tree (entries : List (Str × GObj))

/-- Entry list of a tree, as manipulated by a libgit2 `TreeBuilder`. -/
abbrev RTree := List (Str × GObj)

/-- `TreeBuilder::get`. -/
def tbGet : RTree → Str → Option GObj
  | [], _ => none
  | (n, o) :: tl, name => if n = name then some o else tbGet tl name

/-- `TreeBuilder::insert`: replace the entry with this name, or add it. -/
def tbInsert : RTree → Str → GObj → RTree
  | [], name, o => [(name, o)]
  | (n, p) :: tl, name, o =>
    if n = name then (name, o) :: tl else (n, p) :: tbInsert tl name o

/-- `TreeBuilder::get` followed by `repo.find_tree(...).ok()`: the existing
subtree, `none` when the entry is absent or is a blob. -/
def asTree : Option GObj → Option RTree
  | some (.tree es) => some es
  | _ => none

mutual
/-- Structural equality of git objects: the model of oid equality, since oids
are content addresses. -/
def gobjEq : GObj → GObj → Bool
  | .blob a, .blob b => a == b
  | .tree es, .tree fs => entsEq es fs
  | _, _ => false

/-- Structural equality of tree entry lists. -/
def entsEq : RTree → RTree → Bool
  | [], [] => true
  | (n, o) :: tl, (m, p) :: tl2 => n == m && gobjEq o p && entsEq tl tl2
  | _, _ => false
end

/-- `build_nested_tree` (`src/core/git.rs` lines 79-108) on the pre-split path
segments: a single segment is inserted as a blob entry; otherwise the existing
subtree for the first segment (fresh when absent or a blob) is rebuilt
recursively and re-inserted. -/
def build_nested_tree : RTree → List Str → GObj → RTree
  | es, [], _ => es
  | es, [p], blobO => tbInsert es p blobO
  | es, p :: q :: rest, blobO =>
    let sub := (asTree (tbGet es p)).getD []
    tbInsert es p (.tree (build_nested_tree sub (q :: rest) blobO))

/-- `Tree::get_path`: walk the tree along the path segments. -/
def lookupPath : RTree → List Str → Option GObj
  | _, [] => none
  | es, [p] => tbGet es p
  | es, p :: q :: rest =>
    match tbGet es p with
    | some (.tree sub) => lookupPath sub (q :: rest)
    | _ => none

/-- The subtree entry list reached by descending along path segments, with the
same absent/blob defaulting as `build_nested_tree`. -/
def subAt : RTree → List Str → RTree
  | es, [] => es
  | es, p :: rest => subAt ((asTree (tbGet es p)).getD []) rest

/-- A commit: tree, parent oids, message. -/
structure CommitData where
  tree : RTree
  parents : List Nat
  message : String

/-- The repository model: the commit arena and the branch reference map. -/
structure GitState where
  commits : List CommitData
  branches : List (Str × Nat)

/-- `find_reference("refs/heads/...")` then `peel_to_commit`, as an oid. -/
def lookupBranch (s : GitState) (name : Str) : Option Nat :=
  match s.branches.find? (fun b => b.1 = name) with
  | some b => some b.2
  | none => none

/-- Update or create a branch reference. -/
def setRef : List (Str × Nat) → Str → Nat → List (Str × Nat)
  | [], n, o => [(n, o)]
  | (m, p) :: tl, n, o => if m = n then (n, o) :: tl else (m, p) :: setRef tl n o

/-- `commit_to_branch` (`src/core/git.rs` lines 12-76): write the blob, find
the branch tip (absent means orphan bootstrap), build the updated tree from
the tip's tree (or from scratch), return `none` without committing when the
new tree equals the tip's tree, else commit with the tip as only parent (no
parents for a bootstrap) and advance the reference. -/
def commit_to_branch (s : GitState) (branch_name : Str) (path : List Str)
    (content : Str) (message : String) : Except ItackError (GitState × Option Nat) :=
  let blobO := GObj.blob content
  match lookupBranch s branch_name with
  | some tipOid =>
    match s.commits[tipOid]? with
    | none => .error (.other ("invalid reference target"))
    | some tip =>
      let newTree := build_nested_tree tip.tree path blobO
      if entsEq tip.tree newTree then .ok (s, none)
      else
        let newOid := s.commits.length
        .ok ({ commits := s.commits ++ [⟨newTree, [tipOid], message⟩],
               branches := setRef s.branches branch_name newOid }, some newOid)
  | none =>
    let newTree := build_nested_tree [] path blobO
    let newOid := s.commits.length
    .ok ({ commits := s.commits ++ [⟨newTree, [], message⟩],
           branches := setRef s.branches branch_name newOid }, some newOid)

/-- Ancestor-or-self reachability along parent edges, with recursion fuel. -/
def reachFuel : Nat → GitState → Nat → Nat → Bool
  | 0, _, _, _ => false
  | fuel + 1, s, a, b =>
    a == b ||
      (match s.commits[a]? with
       | some c => c.parents.any (fun p => reachFuel fuel s p b)
       | none => false)

/-- Ancestor-or-self reachability (enough fuel for any well-formed arena). -/
def reachable (s : GitState) (a b : Nat) : Bool :=
  reachFuel (s.commits.length + 1) s a b

/-- libgit2 `git_graph_descendant_of`: true when `commit` is a strict
descendant of `ancestor` — a commit is NOT considered a descendant of
itself. -/
def graph_descendant_of (s : GitState) (commit ancestor : Nat) : Bool :=
  commit != ancestor && reachable s commit ancestor

/-- Model of libgit2 `git_merge_base`: the most recent (largest-index) common
ancestor-or-self of the two commits. -/
def mergeBase (s : GitState) (a b : Nat) : Option Nat :=
  ((List.range s.commits.length).filter
    (fun i => reachable s a i && reachable s b i)).max?

/-- Equality of optional tree entries by object content. -/
def gEntryEq : Option GObj → Option GObj → Bool
  | none, none => true
  | some a, some b => gobjEq a b
  | _, _ => false

/-- Modelled from the spec (§4.2 three-way tree merge): the external libgit2
`merge_trees`, restricted to entrywise trivial merges — for each name take the
side that changed relative to the base, and fail (conflict) when both sides
changed it differently. -/
def mergeTrees (base ours theirs : RTree) : Option RTree :=
  let names := (ours.map Prod.fst ++ theirs.map Prod.fst ++ base.map Prod.fst).dedup
  names.foldr
    (fun n acc =>
      match acc with
      | none => none
      | some es =>
        let b := tbGet base n
        let o := tbGet ours n
        let t := tbGet theirs n
        let merged : Option (Option GObj) :=
          if gEntryEq o t then some o
          else if gEntryEq b o then some t
          else if gEntryEq b t then some o
          else none
        match merged with
        | some (some obj) => some ((n, obj) :: es)
        | some none => some es
        | none => none)
    (some [])

/-- The merge commit message `Merge {source} into {target}`. -/
def mergeMsg (source target : Str) : String :=
  "Merge " ++ String.mk source ++ " into " ++ String.mk target

/-- `merge_branches` (`src/core/git.rs` lines 114-200): bootstrap the target at
the source tip when absent; no-op when the target strictly descends from the
source tip; fast-forward when the source strictly descends from the target
tip; otherwise three-way merge from the merge base, failing on conflicts,
committing with both tips as parents. -/
def merge_branches (s : GitState) (source_branch target_branch : Str) :
    Except ItackError (Nat × GitState) :=
  match lookupBranch s source_branch with
  | none => .error (.branchNotFound source_branch)
  | some sourceOid =>
    match lookupBranch s target_branch with
    | none =>
      .ok (sourceOid, { s with branches := setRef s.branches target_branch sourceOid })
    | some targetOid =>
      if graph_descendant_of s targetOid sourceOid then .ok (targetOid, s)
      else if graph_descendant_of s sourceOid targetOid then
        .ok (sourceOid, { s with branches := setRef s.branches target_branch sourceOid })
      else
        match mergeBase s sourceOid targetOid with
        | none => .error (.other ("no merge base found"))
        | some baseOid =>
          match s.commits[baseOid]?, s.commits[sourceOid]?, s.commits[targetOid]? with
          | some base, some src, some tgt =>
            match mergeTrees base.tree tgt.tree src.tree with
            | none => .error (.mergeConflict source_branch target_branch)
            | some merged =>
              let newOid := s.commits.length
              .ok (newOid,
                { commits := s.commits ++
                    [⟨merged, [targetOid, sourceOid], mergeMsg source_branch target_branch⟩],
                  branches := setRef s.branches target_branch newOid })
          | _, _, _ => .error (.other ("invalid reference target"))

/-- `read_file_from_branch` (`src/core/git.rs` lines 203-225): resolve the
branch (erroring with `BranchNotFound` when absent), walk the tree along the
path, return the blob content (erroring when absent or not a blob). -/
def read_file_from_branch (s : GitState) (branch_name : Str)
    (file_path : List Str) : Except ItackError Str :=
  match lookupBranch s branch_name with
  | none => .error (.branchNotFound branch_name)
  | some oid =>
    match s.commits[oid]? with
    | none => .error (.other ("invalid reference target"))
    | some c =>
      match lookupPath c.tree file_path with
      | some (.blob content) => .ok content
      | some (.tree _) => .error (.other ("not a blob"))
      | none => .error (.other ("File not found in branch"))

/-- Zero-padded 3-digit id rendering (Rust format width `03`). -/
def natPad3 (n : Nat) : Str :=
  if n < 10 then '0' :: '0' :: natStr n
  else if n < 100 then '0' :: natStr n
  else natStr n

/-- The issue filename suffix `-issue-NNN.md`. -/
def issueSuffix (issue_id : Nat) : Str :=
  chars ("-issue-") ++ natPad3 issue_id ++ chars (".md")

mutual
/-- Preorder tree walk collecting the first entry whose name ends with the
suffix (`tree.walk(PreOrder, ...)` with `Abort` on match); `root` carries the
slash-terminated directory prefix. -/
def findInEntries : RTree → Str → Str → Option Str
  | [], _, _ => none
  | (n, o) :: tl, root, sfx =>
    if sfx.isSuffixOf n then some (root ++ n)
    else
      match findInObj o (root ++ n ++ ['/']) sfx with
      | some p => some p
      | none => findInEntries tl root sfx

/-- Descend into one entry's object: blobs have no children. -/
def findInObj : GObj → Str → Str → Option Str
  | .blob _, _, _ => none
  | .tree sub, root, sfx => findInEntries sub root sfx
end

/-- `Path` segments of a relative path string: split at each `'/'`. -/
def splitPath : Str → List Str
  | [] => []
  | c :: tl =>
    if c = '/' then [] :: splitPath tl
    else
      match splitPath tl with
      | [] => [[c]]
      | l :: ls => (c :: l) :: ls

/-- `find_issue_file_in_branch` (`src/core/git.rs` lines 229-262). -/
def find_issue_file_in_branch (s : GitState) (branch_name : Str) (issue_id : Nat) :
    Except ItackError Str :=
  match lookupBranch s branch_name with
  | none => .error (.branchNotFound branch_name)
  | some oid =>
    match s.commits[oid]? with
    | none => .error (.other ("invalid reference target"))
    | some c =>
      match findInEntries c.tree [] (issueSuffix issue_id) with
      | some p => .ok p
      | none => .error (.issueNotFound issue_id)

/-- A loaded issue (the `IssueInfo` struct of `src/storage/db.rs`). -/
structure IssueInfo where
  issue : Issue
  title : Str
  body : Str
  path : Str
deriving DecidableEq

/-- `load_issue_from_branch` (`src/commands/claim.rs` lines 91-106). -/
def load_issue_from_branch (s : GitState) (branch : Str) (id : Nat) :
    Except ItackError IssueInfo := do
  let relative_path ← find_issue_file_in_branch s branch id
  let content ← read_file_from_branch s branch (splitPath relative_path)
  match parseIssue content with
  | .ok r => .ok { issue := r.1, title := r.2.1, body := r.2.2, path := relative_path }
  | .error e => .error e

/-- Arguments of the claim command. -/
structure ClaimArgs where
  id : Nat
  assignee : Str
  session : Option Str

/-- Ambient project context of a claim invocation. -/
structure ClaimEnv where
  data_branch : Str
  current_branch : Option Str
  now : Str

/-- The claim commit message. -/
def claimMsg (id : Nat) (assignee : Str) : String :=
  "Claim issue #" ++ toString id ++ " for " ++ String.mk assignee

/-- `claim::run` (`src/commands/claim.rs` lines 20-88) in the data-branch-only
configuration (`merge_branch = None`, so the working-directory write and the
final merge are skipped): load the issue from the data branch, claim it in the
ledger (an `AlreadyClaimed` failure propagates before any git write), update
the record fields and commit the re-encoded record to the data branch. -/
def claimRun (db : Ledger) (s : GitState) (env : ClaimEnv) (args : ClaimArgs) :
    Except ItackError (Ledger × GitState) := do
  let info ← load_issue_from_branch s env.data_branch args.id
  let db' ← Database.claim db args.id args.assignee env.now
  let issue1 : Issue :=
    { info.issue with
        assignee := some args.assignee,
        branch := env.current_branch,
        session := args.session,
        status := if info.issue.status = .open' then .inProgress else info.issue.status }
  let content := formatIssue issue1 info.title info.body
  let r ← commit_to_branch s env.data_branch (splitPath info.path) content
            (claimMsg args.id args.assignee)
  .ok (db', r.1)

/-- The current schema version. -/
def SCHEMA_VERSION : Int := 1

/-- `path.extension() == Some("md")` for a directory entry name. -/
def hasMdExt (name : Str) : Bool := (chars (".md")).isSuffixOf name && name != chars (".md")

/-- SQLite `INSERT OR REPLACE` into `claims` keyed by the `issue_id` primary
key. -/
def insertOrReplace : List (Nat × Str × Str) → Nat → Str → Str → List (Nat × Str × Str)
  | [], id, a, t => [(id, a, t)]
  | (i, b, u) :: tl, id, a, t =>
    if i = id then (id, a, t) :: tl else (i, b, u) :: insertOrReplace tl id a t

/-- One iteration of the rescan loop (`src/storage/db.rs` lines 145-164):
non-`.md` entries and entries whose content fails to decode are skipped; a
decoded record raises the running max id and, when its `assignee` is present,
upserts a claim row timestamped with the record's `created` field. -/
def scanStep (acc : List (Nat × Str × Str) × Nat) (file : Str × Str) :
    List (Nat × Str × Str) × Nat :=
  if hasMdExt file.1 then
    match parseIssue file.2 with
    | .ok r =>
      let issue := r.1
      let maxId := max acc.2 issue.id
      match issue.assignee with
      | some a => (insertOrReplace acc.1 issue.id a issue.created, maxId)
      | none => (acc.1, maxId)
    | .error _ => acc
  else acc

/-- The full rescan shared by `create_or_rebuild` and `repair_state`: fold the
loop over the directory entries, then set `next_issue_id` to `max_id + 1`. -/
def rebuildScan (files : List (Str × Str)) : Ledger :=
  let acc := files.foldl scanStep ([], 0)
  { claims := acc.1, next_issue_id := acc.2 + 1 }

/-- `Database::create_or_rebuild` (`src/storage/db.rs` lines 99-174): inside an
EXCLUSIVE transaction, re-check the stored version (double-checked locking)
and no-op when already current; otherwise drop and recreate all tables and
rescan the issue directory. -/
def create_or_rebuild (version : Int) (db : Ledger) (files : List (Str × Str)) : Ledger :=
  if version = SCHEMA_VERSION then db else rebuildScan files

/-- `Database::repair_state` (`src/storage/db.rs` lines 178-219): the identical
rescan, run unconditionally. -/
def repair_state (_db : Ledger) (files : List (Str × Str)) : Ledger :=
  rebuildScan files

/-- The `sort_by` comparator of `load_all_issues_from_data_branch` as a
boolean `le`: status priority first, issue id within equal status. -/
def issueLe (a b : Issue) : Bool :=
  decide (a.status.sort_priority < b.status.sort_priority ∨
    (a.status.sort_priority = b.status.sort_priority ∧ a.id ≤ b.id))

/-- The listing sort (Rust `Vec::sort_by` is a stable merge sort). -/
def sortIssues (l : List Issue) : List Issue := l.mergeSort issueLe

instance {ε α : Type} [DecidableEq ε] [DecidableEq α] : DecidableEq (Except ε α) := fun a b =>
  match a, b with
  | .ok x, .ok y =>
    if h : x = y then isTrue (by rw [h])
    else isFalse (fun hc => h (by injection hc))
  | .error x, .error y =>
    if h : x = y then isTrue (by rw [h])
    else isFalse (fun hc => h (by injection hc))
  | .ok _, .error _ => isFalse (fun hc => Except.noConfusion hc)
  | .error _, .ok _ => isFalse (fun hc => Except.noConfusion hc)

/-- Concrete record content used by the C1 witness state. -/
def wIssueContent : Str :=
  chars ("---\ncreated: 2024-01-15T10:30:00Z\nid: 1\nstatus: open\n---\n\n# W\n")

/-- A data branch holding `.itack/2024-01-15-issue-001.md`. -/
def wTree : RTree :=
  [(chars (".itack"), .tree [(chars ("2024-01-15-issue-001.md"), .blob wIssueContent)])]

/-- One-commit repository with the data branch at that commit. -/
def wGit : GitState :=
  { commits := [⟨wTree, [], ("c0")⟩], branches := [(chars ("data/itack"), 0)] }

/-- A ledger in which issue 1 is already claimed by `agent-1`. -/
def wDb : Ledger :=
  { claims := [(1, chars ("agent-1"), chars ("t0"))], next_issue_id := 2 }

/-- Claim environment for the C1 witness. -/
def wEnv : ClaimEnv :=
  { data_branch := chars ("data/itack"), current_branch := none, now := chars ("t1") }

/-- `claim 1 agent-2` arguments for the C1 witness. -/
def wArgs : ClaimArgs := { id := 1, assignee := chars ("agent-2"), session := none }

/-- The issue parsed from `wIssueContent`. -/
def wIssue : Issue :=
  { assignee := none, branch := none, created := chars ("2024-01-15T10:30:00Z"),
    depends_on := [], epic := none, id := 1, session := none, status := .open' }

/-- The records a scan successfully decodes, in scan order. -/
def parsedOf (files : List (Str × Str)) : List Issue :=
  files.filterMap (fun f =>
    if hasMdExt f.1 then (parseIssue f.2).toOption.map (fun r => r.1) else none)

/-- The claim rows a scan generates, in scan order. -/
def claimRowsOf (files : List (Str × Str)) : List (Nat × Str × Str) :=
  (parsedOf files).filterMap (fun i => i.assignee.map (fun a => (i.id, a, i.created)))

/-- The maximum decoded identifier (0 when none). -/
def maxIds (l : List Issue) : Nat := (l.map Issue.id).foldl max 0

/-- Decodable record with id 5 claimed by `agent-1`. -/
def goodRecord5 : Str :=
  chars ("---\nassignee: agent-1\ncreated: 2024-01-15T10:30:00Z\nid: 5\nstatus: open\n---\n\n# Five\n")

/-- Undecodable record carrying the largest identifier `id: 7` (its title
heading is missing, so `parse_issue` rejects it). -/
def badRecord7 : Str :=
  chars ("---\ncreated: 2024-01-15T10:30:00Z\nid: 7\nstatus: open\n---\n\nNo heading.\n")

/-- The scan directory of the C5/C10 witnesses. -/
def wFiles : List (Str × Str) :=
  [(chars ("2024-01-15-issue-005.md"), goodRecord5),
   (chars ("2024-01-15-issue-007.md"), badRecord7)]

/-- Tip tree of branch A in the counterexample. -/
def treeA : RTree := [(chars ("f"), .blob (chars ("1")))]

/-- Tip tree of branch B's ancestor / post-fast-forward tip. -/
def treeB : RTree := [(chars ("f"), .blob (chars ("2")))]

/-- Counterexample start state: branch B at commit 0, branch A strictly ahead
at commit 1 (child of 0). -/
def cex0 : GitState :=
  { commits := [⟨treeA, [], ("c0")⟩, ⟨treeB, [0], ("c1")⟩],
    branches := [(chars ("B"), 0), (chars ("A"), 1)] }

/-- After the first merge: B fast-forwarded to A's tip. -/
def cex1 : GitState :=
  { commits := cex0.commits, branches := [(chars ("B"), 1), (chars ("A"), 1)] }

/-- After the second merge: a redundant self-merge commit with both parents
equal to commit 1, B advanced to it. -/
def cex2 : GitState :=
  { commits := cex0.commits ++ [⟨treeB, [1, 1], mergeMsg (chars ("A")) (chars ("B"))⟩],
    branches := [(chars ("B"), 2), (chars ("A"), 1)] }

/-- Already-contained state for the C7 witness: B strictly ahead of A. -/
def cex3 : GitState :=
  { commits := [⟨treeA, [], ("c0")⟩, ⟨treeB, [0], ("c1")⟩],
    branches := [(chars ("B"), 1), (chars ("A"), 0)] }

/-- All-optional-fields-absent record used in the C3 counterexample. -/
def issueZ : Issue :=
  { assignee := none, branch := none, created := chars ("2024-01-15T10:30:00Z"),
    depends_on := [], epic := none, id := 1, session := none, status := .open' }

/-- No two consecutive dashes. -/
def noDD : Str → Bool
  | [] => true
  | [_] => true
  | a :: b :: tl => !(a == '-' && b == '-') && noDD (b :: tl)

/-- A plain scalar field value: nonempty, no newline, no double dash — the
modelled domain in which `serde_yaml` emits the value as an unquoted scalar
line. -/
def Plain (v : Str) : Prop := v ≠ [] ∧ noDD v = true ∧ '\n' ∉ v

/-- All string fields of the record are plain scalars. -/
def PlainIssue (i : Issue) : Prop :=
  (∀ v, i.assignee = some v → Plain v) ∧ (∀ v, i.branch = some v → Plain v) ∧
  (∀ v, i.epic = some v → Plain v) ∧ (∀ v, i.session = some v → Plain v) ∧
  Plain i.created

/-- The header lines contributed by an optional field. -/
def optKVLines (kc : Str) : Option Str → List Str
  | none => []
  | some v => [kc ++ ':' :: ' ' :: v]

/-- The header lines contributed by the `depends_on` list. -/
def depLL : List Nat → List Str
  | [] => []
  | d :: ds =>
    ['d', 'e', 'p', 'e', 'n', 'd', 's', '_', 'o', 'n', ':'] ::
      (d :: ds).map (fun x => '-' :: ' ' :: natStr x)

/-- Well-formedness carried across header segments: no double dash inside, and
the last character is not a dash. -/
def SegOk (s : Str) : Prop := noDD s = true ∧ s.getLast? ≠ some '-'

/-- All-fields-present plain record for the C3 witness. -/
def iW : Issue :=
  { assignee := some (chars ("agent-1")), branch := some (chars ("feat/x")),
    created := chars ("2024-01-15T10:30:00Z"), depends_on := [2, 3],
    epic := some (chars ("MVP")), id := 12, session := some (chars ("s1")),
    status := .inProgress }

theorem allocIds_spec (db : Ledger) (n : Nat) :
    allocIds db n = ((List.range n).map (fun k => db.next_issue_id + k),
      { db with next_issue_id := db.next_issue_id + n }) := by
  induction n generalizing db with
  | zero => simp [allocIds]
  | succ m ih =>
    have h2 : db.next_issue_id + 1 + m = db.next_issue_id + (m + 1) := by omega
    simp only [allocIds, Database.nextIssueId, ih, List.range_succ_eq_map, List.map_cons,
      List.map_map, Prod.mk.injEq, h2]
    refine ⟨?_, trivial⟩
    simp only [List.cons.injEq]
    exact ⟨by omega, List.map_congr_left (fun a _ => by simp only [Function.comp_apply]; omega)⟩

/-- Claim C4: allocate-next-id is a read-increment-return of the pre-increment
value; `n` sequential calls return the consecutive run starting at the current
counter — distinct, strictly increasing, no gaps, no repeats. -/
theorem c4_next_issue_id_monotonic (db : Ledger) (n : Nat) :
    (allocIds db n).1.length = n ∧
    (∀ i, i < n → (allocIds db n).1[i]? = some (db.next_issue_id + i)) ∧
    (allocIds db n).1.Nodup ∧
    (allocIds db n).2 = { db with next_issue_id := db.next_issue_id + n } := by
  rw [allocIds_spec]
  refine ⟨by simp, ?_, ?_, rfl⟩
  · intro i hi
    simp [List.getElem?_map, List.getElem?_range, hi]
  · exact List.Nodup.map (fun a b h => by omega) (List.nodup_range n)

/-- Claim C4 witness: three allocations from counter 5 yield 5, 6, 7. -/
theorem c4_next_issue_id_monotonic_witness :
    (allocIds ⟨[], 5⟩ 3).1[1]? = some 6 ∧ (allocIds ⟨[], 5⟩ 3).1.Nodup :=
  ⟨(c4_next_issue_id_monotonic ⟨[], 5⟩ 3).2.1 1 (by decide),
   (c4_next_issue_id_monotonic ⟨[], 5⟩ 3).2.2.1⟩

/-- Claim C9: `sort_priority` is strictly increasing along
InProgress < Open < Done < WontFix, and the listing sort emits a permutation
of its input ordered by status priority first and issue id within equal
status. -/
theorem c9_listing_order :
    (Status.sort_priority .inProgress < Status.sort_priority .open' ∧
     Status.sort_priority .open' < Status.sort_priority .done ∧
     Status.sort_priority .done < Status.sort_priority .wontFix) ∧
    ∀ l : List Issue,
      (sortIssues l).Perm l ∧
      (sortIssues l).Pairwise (fun a b =>
        a.status.sort_priority < b.status.sort_priority ∨
        (a.status.sort_priority = b.status.sort_priority ∧ a.id ≤ b.id)) := by
  refine ⟨by decide, fun l => ⟨List.mergeSort_perm l issueLe, ?_⟩⟩
  have h := @List.sorted_mergeSort _ issueLe
    (fun a b c hab hbc => by
      simp only [issueLe, decide_eq_true_eq] at hab hbc ⊢
      omega)
    (fun a b => by
      simp only [issueLe, Bool.or_eq_true, decide_eq_true_eq]
      omega)
    l
  exact h.imp (fun hab => by simpa [issueLe, decide_eq_true_eq] using hab)

/-- Claim C6: at the failing input — any state in which the branch reference
is absent — `read_file_from_branch` returns a `BranchNotFound` error rather
than a non-error "not found" result. -/
theorem c6_read_errors_on_missing_branch :
    read_file_from_branch ⟨[], []⟩ (chars ("data/itack")) [chars (".itack"), chars ("1.md")] =
      .error (.branchNotFound (chars ("data/itack"))) := rfl

/-- Claim C1: if a claim row exists for the id, `Database::claim` fails with
an `AlreadyClaimed` error naming the existing assignee and yields no successor
state, and `claim::run` then fails the same way before any data-branch commit
is attempted; if no row exists, claiming inserts exactly one new row binding
the id to the assignee. -/
theorem c1_claim_conflict_or_insert :
    (∀ (db : Ledger) (id : Nat) (a now existing : Str),
      lookupClaim db.claims id = some existing →
        Database.claim db id a now = .error (.alreadyClaimed id existing)) ∧
    (∀ (db : Ledger) (id : Nat) (a now : Str),
      lookupClaim db.claims id = none →
        Database.claim db id a now =
          .ok { db with claims := db.claims ++ [(id, a, now)] }) ∧
    (∀ (db : Ledger) (s : GitState) (env : ClaimEnv) (args : ClaimArgs)
       (info : IssueInfo) (existing : Str),
      load_issue_from_branch s env.data_branch args.id = .ok info →
      lookupClaim db.claims args.id = some existing →
        claimRun db s env args = .error (.alreadyClaimed args.id existing)) := by
  refine ⟨?_, ?_, ?_⟩
  · intro db id a now existing h
    simp [Database.claim, h]
  · intro db id a now h
    simp [Database.claim, h]
  · intro db s env args info existing hload hclaim
    simp [claimRun, hload, Database.claim, hclaim, Bind.bind, Except.bind]

/-- Claim C1 witness: claiming the already-claimed issue 1 for `agent-2` fails
naming `agent-1` without reaching the data branch. -/
theorem c1_claim_conflict_or_insert_witness :
    claimRun wDb wGit wEnv wArgs = .error (.alreadyClaimed 1 (chars ("agent-1"))) :=
  c1_claim_conflict_or_insert.2.2 wDb wGit wEnv wArgs
    ⟨wIssue, chars ("W"), [], chars (".itack/2024-01-15-issue-001.md")⟩
    (chars ("agent-1")) (by decide) rfl

theorem tbGet_tbInsert_self (es : RTree) (n : Str) (o : GObj) :
    tbGet (tbInsert es n o) n = some o := by
  induction es with
  | nil => simp [tbInsert, tbGet]
  | cons e tl ih =>
    obtain ⟨m, p⟩ := e
    by_cases h : m = n <;> simp [tbInsert, tbGet, h, ih]

theorem tbGet_tbInsert_ne (es : RTree) (n m : Str) (o : GObj) (h : m ≠ n) :
    tbGet (tbInsert es n o) m = tbGet es m := by
  induction es with
  | nil => simp [tbInsert, tbGet, Ne.symm h]
  | cons e tl ih =>
    obtain ⟨k, p⟩ := e
    by_cases hk : k = n
    · subst hk
      simp [tbInsert, tbGet, Ne.symm h, ih]
    · by_cases hm : k = m
      · subst hm
        simp [tbInsert, tbGet, hk]
      · simp [tbInsert, tbGet, hk, hm, ih]

/-- The written leaf is present at the full path after the rebuild. -/
theorem build_nested_tree_lookupPath (parts : List Str) (es : RTree) (blobO : GObj)
    (hne : parts ≠ []) :
    lookupPath (build_nested_tree es parts blobO) parts = some blobO := by
  induction parts generalizing es with
  | nil => exact absurd rfl hne
  | cons p rest ih =>
    cases rest with
    | nil => simp [build_nested_tree, lookupPath, tbGet_tbInsert_self]
    | cons q rest2 =>
      simp [build_nested_tree, lookupPath, tbGet_tbInsert_self]
      exact ih _ (by simp)

/-- Frame preservation at every level along the path: an entry not on the path
at depth `i` is untouched by the rebuild. -/
theorem build_nested_tree_frame (parts : List Str) (es : RTree) (blobO : GObj)
    (i : Nat) (hi : i < parts.length) (n : Str) (hn : n ≠ parts.get ⟨i, hi⟩) :
    tbGet (subAt (build_nested_tree es parts blobO) (parts.take i)) n =
      tbGet (subAt es (parts.take i)) n := by
  induction parts generalizing es i with
  | nil => simp at hi
  | cons p rest ih =>
    cases i with
    | zero =>
      simp only [List.take_zero, subAt]
      cases rest with
      | nil => simpa [build_nested_tree] using tbGet_tbInsert_ne es p n blobO (by simpa using hn)
      | cons q rest2 =>
        simpa [build_nested_tree] using tbGet_tbInsert_ne es p n _ (by simpa using hn)
    | succ j =>
      have hj : j < rest.length := by simpa using hi
      cases rest with
      | nil => simp at hj
      | cons q rest2 =>
        simp only [List.take_succ_cons, subAt, build_nested_tree]
        rw [tbGet_tbInsert_self]
        simp only [asTree, Option.getD_some]
        exact ih _ j hj (by simpa using hn)

/-- Claim C8: writing one leaf through `build_nested_tree` rebuilds the levels
along the path only — the leaf lands at the full path, and at every depth
every entry whose name is off the path is carried over unchanged from the
corresponding existing subtree. -/
theorem c8_build_nested_tree_frame_preserving (parts : List Str) (es : RTree)
    (blobO : GObj) (hne : parts ≠ []) :
    lookupPath (build_nested_tree es parts blobO) parts = some blobO ∧
    ∀ (i : Nat) (hi : i < parts.length) (n : Str), n ≠ parts.get ⟨i, hi⟩ →
      tbGet (subAt (build_nested_tree es parts blobO) (parts.take i)) n =
        tbGet (subAt es (parts.take i)) n :=
  ⟨build_nested_tree_lookupPath parts es blobO hne,
   fun i hi n hn => build_nested_tree_frame parts es blobO i hi n hn⟩

/-- Claim C8 witness: writing `.itack/new.md` into a tree with a sibling file
at each level preserves the siblings and lands the leaf. -/
theorem c8_build_nested_tree_frame_preserving_witness :
    lookupPath
      (build_nested_tree
        [(chars ("README"), .blob []),
         (chars (".itack"), .tree [(chars ("old.md"), .blob [])])]
        [chars (".itack"), chars ("new.md")] (.blob (chars ("x"))))
      [chars (".itack"), chars ("new.md")] = some (.blob (chars ("x"))) ∧
    tbGet
      (subAt
        (build_nested_tree
          [(chars ("README"), .blob []),
           (chars (".itack"), .tree [(chars ("old.md"), .blob [])])]
          [chars (".itack"), chars ("new.md")] (.blob (chars ("x"))))
        [chars (".itack")])
      (chars ("old.md")) =
      tbGet
        (subAt
          [(chars ("README"), .blob []),
           (chars (".itack"), .tree [(chars ("old.md"), .blob [])])]
          [chars (".itack")])
        (chars ("old.md")) :=
  ⟨(c8_build_nested_tree_frame_preserving _ _ _ (by decide)).1,
   (c8_build_nested_tree_frame_preserving _ _ _ (by decide)).2 1 (by decide) _ (by decide)⟩

theorem find?_setRef_self (br : List (Str × Nat)) (b : Str) (o : Nat) :
    (setRef br b o).find? (fun x => x.1 = b) = some (b, o) := by
  induction br with
  | nil => simp [setRef]
  | cons e tl ih =>
    obtain ⟨m, p⟩ := e
    by_cases h : m = b
    · subst h
      simp [setRef]
    · simp [setRef, h, ih]

theorem find?_setRef_ne (br : List (Str × Nat)) (b a : Str) (o : Nat) (h : a ≠ b) :
    (setRef br b o).find? (fun x => x.1 = a) = br.find? (fun x => x.1 = a) := by
  induction br with
  | nil => simp [setRef, Ne.symm h]
  | cons e tl ih =>
    obtain ⟨m, p⟩ := e
    by_cases hm : m = b
    · subst hm
      simp [setRef, Ne.symm h, ih]
    · by_cases ha : m = a
      · subst ha
        simp [setRef, hm]
      · simp [setRef, hm, ha, ih]

theorem lookupBranch_setRef_self (cs : List CommitData) (br : List (Str × Nat))
    (b : Str) (o : Nat) :
    lookupBranch ⟨cs, setRef br b o⟩ b = some o := by
  simp [lookupBranch, find?_setRef_self]

theorem lookupBranch_setRef_ne (cs : List CommitData) (br : List (Str × Nat))
    (b a : Str) (o : Nat) (h : a ≠ b) :
    lookupBranch ⟨cs, setRef br b o⟩ a = lookupBranch ⟨cs, br⟩ a := by
  simp [lookupBranch, find?_setRef_ne br b a o h]

/-- Claim C2: `commit_to_branch` either returns the no-op result without any
state change when the rebuilt top-level tree is identical to the tip's tree,
or advances the branch to exactly one new commit whose tree is the rebuilt
tree containing the new content at the path, parented on the previous tip
(parentless when the branch did not exist). -/
theorem c2_commit_to_branch (s : GitState) (b : Str) (path : List Str)
    (content : Str) (msg : String) (hpath : path ≠ []) :
    (∀ tipOid tip, lookupBranch s b = some tipOid → s.commits[tipOid]? = some tip →
      (entsEq tip.tree (build_nested_tree tip.tree path (GObj.blob content)) = true →
        commit_to_branch s b path content msg = .ok (s, none)) ∧
      (entsEq tip.tree (build_nested_tree tip.tree path (GObj.blob content)) = false →
        ∃ s2, commit_to_branch s b path content msg = .ok (s2, some s.commits.length) ∧
          s2.commits = s.commits ++
            [⟨build_nested_tree tip.tree path (GObj.blob content), [tipOid], msg⟩] ∧
          lookupBranch s2 b = some s.commits.length ∧
          lookupPath (build_nested_tree tip.tree path (GObj.blob content)) path =
            some (.blob content))) ∧
    (lookupBranch s b = none →
      ∃ s2, commit_to_branch s b path content msg = .ok (s2, some s.commits.length) ∧
        s2.commits = s.commits ++
          [⟨build_nested_tree [] path (GObj.blob content), [], msg⟩] ∧
        lookupBranch s2 b = some s.commits.length ∧
        lookupPath (build_nested_tree [] path (GObj.blob content)) path =
          some (.blob content)) := by
  constructor
  · intro tipOid tip hB hC
    constructor
    · intro hEq
      simp [commit_to_branch, hB, hC, hEq]
    · intro hNe
      refine ⟨⟨s.commits ++
          [⟨build_nested_tree tip.tree path (GObj.blob content), [tipOid], msg⟩],
          setRef s.branches b s.commits.length⟩, ?_, rfl, ?_, ?_⟩
      · simp [commit_to_branch, hB, hC, hNe]
      · exact lookupBranch_setRef_self _ _ _ _
      · exact build_nested_tree_lookupPath path tip.tree (GObj.blob content) hpath
  · intro hB
    refine ⟨⟨s.commits ++ [⟨build_nested_tree [] path (GObj.blob content), [], msg⟩],
        setRef s.branches b s.commits.length⟩, ?_, rfl, ?_, ?_⟩
    · simp [commit_to_branch, hB]
    · exact lookupBranch_setRef_self _ _ _ _
    · exact build_nested_tree_lookupPath path [] (GObj.blob content) hpath

/-- Claim C2 witness: committing changed content to an existing one-commit
branch advances it; the no-op and bootstrap branches are exercised through the
same theorem at the same concrete state. -/
theorem c2_commit_to_branch_witness :
    (∃ s2, commit_to_branch wGit (chars ("data/itack"))
        [chars (".itack"), chars ("2.md")] (chars ("y")) ("m") =
        .ok (s2, some 1) ∧
      s2.commits = wGit.commits ++
        [⟨build_nested_tree wTree [chars (".itack"), chars ("2.md")]
            (GObj.blob (chars ("y"))), [0], ("m")⟩] ∧
      lookupBranch s2 (chars ("data/itack")) = some 1 ∧
      lookupPath (build_nested_tree wTree [chars (".itack"), chars ("2.md")]
        (GObj.blob (chars ("y")))) [chars (".itack"), chars ("2.md")] =
        some (.blob (chars ("y")))) ∧
    (∃ s2, commit_to_branch wGit (chars ("other")) [chars ("a.md")] (chars ("z")) ("m2") =
        .ok (s2, some 1) ∧
      s2.commits = wGit.commits ++
        [⟨build_nested_tree [] [chars ("a.md")] (GObj.blob (chars ("z"))), [], ("m2")⟩] ∧
      lookupBranch s2 (chars ("other")) = some 1 ∧
      lookupPath (build_nested_tree [] [chars ("a.md")] (GObj.blob (chars ("z"))))
        [chars ("a.md")] = some (.blob (chars ("z")))) :=
  ⟨((c2_commit_to_branch wGit (chars ("data/itack")) [chars (".itack"), chars ("2.md")]
      (chars ("y")) ("m") (by decide)).1 0 ⟨wTree, [], ("c0")⟩ (by decide) rfl).2
      (by decide),
   (c2_commit_to_branch wGit (chars ("other")) [chars ("a.md")] (chars ("z")) ("m2")
      (by decide)).2 (by decide)⟩

theorem insertOrReplace_not_mem (rows : List (Nat × Str × Str)) (id : Nat) (a t : Str)
    (h : ∀ r ∈ rows, r.1 ≠ id) :
    insertOrReplace rows id a t = rows ++ [(id, a, t)] := by
  induction rows with
  | nil => simp [insertOrReplace]
  | cons r tl ih =>
    obtain ⟨i, b, u⟩ := r
    have hi : i ≠ id := h (i, b, u) (by simp)
    simp only [insertOrReplace, if_neg hi, List.cons_append, List.cons.injEq, true_and]
    exact ih (fun r hr => h r (by simp [hr]))

theorem foldl_max_init (l : List Nat) (a : Nat) : l.foldl max a = max a (l.foldl max 0) := by
  induction l generalizing a with
  | nil => simp
  | cons x tl ih =>
    simp only [List.foldl_cons]
    rw [ih (max a x), ih (max 0 x)]
    omega

theorem mem_le_foldl_max (l : List Nat) (a : Nat) (h : a ∈ l) : a ≤ l.foldl max 0 := by
  induction l with
  | nil => simp at h
  | cons x tl ih =>
    simp only [List.foldl_cons]
    rw [foldl_max_init tl (max 0 x)]
    rcases List.mem_cons.mp h with h | h
    · omega
    · have := ih h
      omega

theorem scan_fold (files : List (Str × Str)) :
    ∀ acc : List (Nat × Str × Str) × Nat,
      ((parsedOf files).map Issue.id).Nodup →
      (∀ r ∈ acc.1, r.1 ∉ (parsedOf files).map Issue.id) →
      files.foldl scanStep acc = (acc.1 ++ claimRowsOf files, max acc.2 (maxIds (parsedOf files))) := by
  induction files with
  | nil => intro acc _ _; simp [parsedOf, claimRowsOf, maxIds]
  | cons f tl ih =>
    intro acc hnd hdisj
    obtain ⟨nm, ct⟩ := f
    by_cases hmd : hasMdExt nm
    · rcases hp : parseIssue ct with e | r
      · have hparsed : parsedOf ((nm, ct) :: tl) = parsedOf tl := by
          simp [parsedOf, List.filterMap_cons, hmd, hp, Except.toOption]
        rw [hparsed] at hnd hdisj
        have step : scanStep acc (nm, ct) = acc := by
          simp [scanStep, hmd, hp]
        rw [List.foldl_cons, step, ih acc hnd hdisj, hparsed]
        simp [claimRowsOf, hparsed]
      · obtain ⟨issue, title, body⟩ := r
        have hparsed : parsedOf ((nm, ct) :: tl) = issue :: parsedOf tl := by
          simp [parsedOf, List.filterMap_cons, hmd, hp, Except.toOption]
        rw [hparsed] at hnd hdisj
        have hnd2 : (∀ x ∈ parsedOf tl, ¬x.id = issue.id) ∧
            ((parsedOf tl).map Issue.id).Nodup := by
          simpa [List.nodup_cons] using hnd
        have hid_tl : issue.id ∉ (parsedOf tl).map Issue.id := by
          simp only [List.mem_map, not_exists]
          intro x
          rintro ⟨hx, he⟩
          exact hnd2.1 x hx he
        have hnd_tl : ((parsedOf tl).map Issue.id).Nodup := hnd2.2
        have hacc_ne : ∀ r ∈ acc.1, r.1 ≠ issue.id :=
          fun r hr => by
            have := hdisj r hr
            simp only [hparsed] at this ⊢
            intro hc
            exact this (by simp [hc])
        have hacc_tl : ∀ r ∈ acc.1, r.1 ∉ (parsedOf tl).map Issue.id :=
          fun r hr => by
            have := hdisj r hr
            intro hc
            exact this (by simp [hc])
        have hmax : maxIds (issue :: parsedOf tl) = max issue.id (maxIds (parsedOf tl)) := by
          simp only [maxIds, List.map_cons, List.foldl_cons]
          rw [foldl_max_init _ (max 0 issue.id)]
          omega
        rcases ha : issue.assignee with _ | a
        · have step : scanStep acc (nm, ct) = (acc.1, max acc.2 issue.id) := by
            simp [scanStep, hmd, hp, ha]
          rw [List.foldl_cons, step,
            ih (acc.1, max acc.2 issue.id) hnd_tl (by simpa using hacc_tl)]
          have hrows : claimRowsOf ((nm, ct) :: tl) = claimRowsOf tl := by
            simp [claimRowsOf, hparsed, ha]
          rw [hrows, hparsed, hmax]
          simp only [Prod.mk.injEq, true_and]
          omega
        · have step : scanStep acc (nm, ct) =
              (insertOrReplace acc.1 issue.id a issue.created, max acc.2 issue.id) := by
            simp [scanStep, hmd, hp, ha]
          have hins : insertOrReplace acc.1 issue.id a issue.created =
              acc.1 ++ [(issue.id, a, issue.created)] :=
            insertOrReplace_not_mem _ _ _ _ hacc_ne
          rw [List.foldl_cons, step, hins,
            ih (acc.1 ++ [(issue.id, a, issue.created)], max acc.2 issue.id) hnd_tl ?side]
          case side =>
            intro r hr
            rcases List.mem_append.mp hr with hr | hr
            · exact hacc_tl r hr
            · simp only [List.mem_singleton] at hr
              subst hr
              exact hid_tl
          have hrows : claimRowsOf ((nm, ct) :: tl) = (issue.id, a, issue.created) :: claimRowsOf tl := by
            simp [claimRowsOf, hparsed, ha]
          rw [hrows, hparsed, hmax]
          simp only [Prod.mk.injEq, List.append_assoc, List.singleton_append, true_and]
          omega
    · have hparsed : parsedOf ((nm, ct) :: tl) = parsedOf tl := by
        simp [parsedOf, List.filterMap_cons, hmd]
      rw [hparsed] at hnd hdisj
      have step : scanStep acc (nm, ct) = acc := by
        simp [scanStep, hmd]
      rw [List.foldl_cons, step, ih acc hnd hdisj, hparsed]
      simp [claimRowsOf, hparsed]

/-- Claim C5: with a non-current schema version, `create_or_rebuild` rebuilds
the ledger from the scan alone — a claim row exists exactly for each decoded
record with a present assignee (timestamped with the record's creation
timestamp), and the next-identifier counter becomes `max(decoded ids) + 1`
(`1` when no records decode). -/
theorem c5_create_or_rebuild (version : Int) (db : Ledger) (files : List (Str × Str))
    (hver : version ≠ SCHEMA_VERSION)
    (hnd : ((parsedOf files).map Issue.id).Nodup) :
    (create_or_rebuild version db files).claims = claimRowsOf files ∧
    (∀ id a t, (id, a, t) ∈ (create_or_rebuild version db files).claims ↔
      ∃ issue ∈ parsedOf files,
        issue.id = id ∧ issue.assignee = some a ∧ issue.created = t) ∧
    (create_or_rebuild version db files).next_issue_id = maxIds (parsedOf files) + 1 ∧
    ∀ issue ∈ parsedOf files,
      issue.id < (create_or_rebuild version db files).next_issue_id := by
  have hre : create_or_rebuild version db files = rebuildScan files := by
    simp [create_or_rebuild, hver]
  have hscan := scan_fold files ([], 0) hnd (by simp)
  have hclaims : (create_or_rebuild version db files).claims = claimRowsOf files := by
    rw [hre]
    simp [rebuildScan, hscan]
  have hnext : (create_or_rebuild version db files).next_issue_id =
      maxIds (parsedOf files) + 1 := by
    rw [hre]
    simp [rebuildScan, hscan]
  refine ⟨hclaims, ?_, hnext, ?_⟩
  · intro id a t
    rw [hclaims]
    constructor
    · intro hmem
      rcases List.mem_filterMap.mp hmem with ⟨issue, hin, hg⟩
      rcases Option.map_eq_some'.mp hg with ⟨x, hx, he⟩
      simp only [Prod.mk.injEq] at he
      exact ⟨issue, hin, he.1, by rw [hx, he.2.1], he.2.2⟩
    · rintro ⟨issue, hin, hid, ha, ht⟩
      exact List.mem_filterMap.mpr ⟨issue, hin, by simp [ha, hid, ht]⟩
  · intro issue hin
    rw [hnext]
    have : issue.id ∈ (parsedOf files).map Issue.id := List.mem_map_of_mem _ hin
    have := mem_le_foldl_max _ _ this
    simp only [maxIds] at *
    omega

/-- Claim C5 witness: rebuilding over `wFiles` yields exactly the one claim
row of record 5 and counter `5 + 1`. -/
theorem c5_create_or_rebuild_witness :
    (create_or_rebuild 0 ⟨[], 9⟩ wFiles).claims = claimRowsOf wFiles ∧
    (create_or_rebuild 0 ⟨[], 9⟩ wFiles).next_issue_id = maxIds (parsedOf wFiles) + 1 :=
  ⟨(c5_create_or_rebuild 0 ⟨[], 9⟩ wFiles (by decide) (by decide)).1,
   (c5_create_or_rebuild 0 ⟨[], 9⟩ wFiles (by decide) (by decide)).2.2.1⟩

theorem scanStep_skip (acc : List (Nat × Str × Str) × Nat) (name content : Str)
    (h : (parseIssue content).isOk = false) :
    scanStep acc (name, content) = acc := by
  rcases hp : parseIssue content with e | r
  · by_cases hmd : hasMdExt name <;> simp [scanStep, hmd, hp]
  · rw [hp] at h
    simp [Except.isOk, Except.toBool] at h

/-- Claim C10: a record file that fails to decode is silently skipped by the
scan — removing it changes nothing — and on `wFiles`, whose undecodable file
carries the maximum identifier 7, the rebuilt counter is 6 ≤ 7, at or below
an identifier already present in the directory. -/
theorem c10_undecodable_skipped_counter_low :
    (∀ (pre post : List (Str × Str)) (name content : Str),
      (parseIssue content).isOk = false →
        rebuildScan (pre ++ (name, content) :: post) = rebuildScan (pre ++ post)) ∧
    (parseIssue badRecord7).isOk = false ∧
    (findSub (chars ("id: 7")) badRecord7).isSome = true ∧
    rebuildScan wFiles =
      ⟨[(5, chars ("agent-1"), chars ("2024-01-15T10:30:00Z"))], 6⟩ ∧
    (rebuildScan wFiles).next_issue_id ≤ 7 := by
  refine ⟨?_, by decide, by decide, by decide, by decide⟩
  intro pre post name content h
  simp only [rebuildScan, List.foldl_append, List.foldl_cons,
    scanStep_skip _ name content h]

/-- Claim C10 witness: dropping the undecodable file from `wFiles` leaves the
rebuilt ledger unchanged. -/
theorem c10_undecodable_skipped_counter_low_witness :
    rebuildScan wFiles = rebuildScan [(chars ("2024-01-15-issue-005.md"), goodRecord5)] :=
  c10_undecodable_skipped_counter_low.1
    [(chars ("2024-01-15-issue-005.md"), goodRecord5)] []
    (chars ("2024-01-15-issue-007.md")) badRecord7 (by decide)

/-- A successful merge leaves the target branch at the returned oid and the
source branch reference untouched. -/
theorem merge_branches_ok_refs (s : GitState) (A B : Str) (hAB : A ≠ B)
    (t : Nat) (s1 : GitState) (h : merge_branches s A B = .ok (t, s1)) :
    lookupBranch s1 B = some t ∧ lookupBranch s1 A = lookupBranch s A := by
  unfold merge_branches at h
  rcases hA : lookupBranch s A with _ | sourceOid
  · simp only [hA] at h
    exact Except.noConfusion h
  · simp only [hA] at h
    rcases hB : lookupBranch s B with _ | targetOid
    · simp only [hB, Except.ok.injEq, Prod.mk.injEq] at h
      obtain ⟨ht, hs⟩ := h
      subst ht
      subst hs
      obtain ⟨cs, br⟩ := s
      exact ⟨lookupBranch_setRef_self _ _ _ _,
        (lookupBranch_setRef_ne _ _ _ _ _ hAB).trans hA⟩
    · simp only [hB] at h
      by_cases hd1 : graph_descendant_of s targetOid sourceOid = true
      · rw [if_pos hd1] at h
        simp only [Except.ok.injEq, Prod.mk.injEq] at h
        obtain ⟨ht, hs⟩ := h
        subst ht
        subst hs
        exact ⟨hB, hA⟩
      · rw [if_neg hd1] at h
        by_cases hd2 : graph_descendant_of s sourceOid targetOid = true
        · rw [if_pos hd2] at h
          simp only [Except.ok.injEq, Prod.mk.injEq] at h
          obtain ⟨ht, hs⟩ := h
          subst ht
          subst hs
          obtain ⟨cs, br⟩ := s
          exact ⟨lookupBranch_setRef_self _ _ _ _,
            (lookupBranch_setRef_ne _ _ _ _ _ hAB).trans hA⟩
        · rw [if_neg hd2] at h
          rcases hmb : mergeBase s sourceOid targetOid with _ | baseOid
          · simp only [hmb] at h
            exact Except.noConfusion h
          · simp only [hmb] at h
            rcases hc1 : s.commits[baseOid]? with _ | base
            · simp only [hc1] at h
              exact Except.noConfusion h
            · rcases hc2 : s.commits[sourceOid]? with _ | src
              · simp only [hc1, hc2] at h
                exact Except.noConfusion h
              · rcases hc3 : s.commits[targetOid]? with _ | tgt
                · simp only [hc1, hc2, hc3] at h
                  exact Except.noConfusion h
                · simp only [hc1, hc2, hc3] at h
                  rcases hmt : mergeTrees base.tree tgt.tree src.tree with _ | merged
                  · simp only [hmt] at h
                    exact Except.noConfusion h
                  · simp only [hmt, Except.ok.injEq, Prod.mk.injEq] at h
                    obtain ⟨ht, hs⟩ := h
                    subst ht
                    subst hs
                    obtain ⟨cs, br⟩ := s
                    exact ⟨lookupBranch_setRef_self _ _ _ _,
                      (lookupBranch_setRef_ne _ _ _ _ _ hAB).trans hA⟩

/-- Claim C7 (amended): merging twice is equivalent to merging once provided
the first merge leaves the target tip a strict descendant of the source tip —
then the second call performs no mutation and returns the unchanged tip. (The
equal-tip outcomes — bootstrap and fast-forward — are excluded: see the
counterexample.) -/
theorem c7_merge_second_noop_when_strictly_ahead (s : GitState) (A B : Str)
    (hAB : A ≠ B) (t1 : Nat) (s1 : GitState)
    (h1 : merge_branches s A B = .ok (t1, s1))
    (a : Nat) (ha : lookupBranch s A = some a)
    (hstrict : graph_descendant_of s1 t1 a = true) :
    merge_branches s1 A B = .ok (t1, s1) := by
  obtain ⟨hB1, hA1⟩ := merge_branches_ok_refs s A B hAB t1 s1 h1
  rw [ha] at hA1
  unfold merge_branches
  simp [hA1, hB1, hstrict]

/-- Claim C7 counterexample: with existing branches A and B where A is
strictly ahead, the first merge fast-forwards B to A's tip (commit 1), but the
second merge is not a no-op — it creates a new commit 2 (parents `[1, 1]`) and
moves B to it, so merging twice differs from merging once. -/
theorem c7_counterexample :
    merge_branches cex0 (chars ("A")) (chars ("B")) = .ok (1, cex1) ∧
    merge_branches cex1 (chars ("A")) (chars ("B")) = .ok (2, cex2) ∧
    lookupBranch cex1 (chars ("B")) = some 1 ∧
    lookupBranch cex2 (chars ("B")) = some 2 ∧
    (2 : Nat) ≠ 1 :=
  ⟨rfl, rfl, rfl, rfl, by decide⟩

/-- Claim C7 (amended) witness: when B's tip strictly descends from A's tip,
the repeated merge returns B's unchanged tip on the unchanged state. -/
theorem c7_merge_second_noop_when_strictly_ahead_witness :
    merge_branches cex3 (chars ("A")) (chars ("B")) = .ok (1, cex3) :=
  c7_merge_second_noop_when_strictly_ahead cex3 (chars ("A")) (chars ("B")) (by decide)
    1 cex3 rfl 0 rfl rfl

/-- Claim C3 counterexample: for the body `x` without a trailing newline, the
round trip returns `x\n`, not the original strings. -/
theorem c3_counterexample :
    parseIssue (formatIssue issueZ (chars ("T")) (chars ("x"))) =
      .ok (issueZ, chars ("T"), chars ("x") ++ ['\n']) ∧
    chars ("x") ++ ['\n'] ≠ chars ("x") :=
  ⟨by decide, by decide⟩

theorem takeWhile_append_mid {α : Type} (p : α → Bool) (l : List α) (x : α) (r : List α)
    (hl : ∀ c ∈ l, p c = true) (hx : p x = false) :
    (l ++ x :: r).takeWhile p = l := by
  induction l with
  | nil => simp [List.takeWhile_cons, hx]
  | cons a tl ih =>
    have ha := hl a (by simp)
    simp [List.takeWhile_cons, ha, ih (fun c hc => hl c (by simp [hc]))]

theorem dropWhile_append_mid {α : Type} (p : α → Bool) (l : List α) (x : α) (r : List α)
    (hl : ∀ c ∈ l, p c = true) (hx : p x = false) :
    (l ++ x :: r).dropWhile p = x :: r := by
  induction l with
  | nil => simp [List.dropWhile_cons, hx]
  | cons a tl ih =>
    have ha := hl a (by simp)
    simp [List.dropWhile_cons, ha, ih (fun c hc => hl c (by simp [hc]))]

theorem splitLines_line (l rest : Str) (hl : '\n' ∉ l) :
    splitLines (l ++ '\n' :: rest) = l :: splitLines rest := by
  induction l with
  | nil => simp [splitLines]
  | cons c tl ih =>
    have hc : ¬(c = '\n') := fun h => hl (by simp [h])
    have ih2 := ih (fun h => hl (by simp [h]))
    simp [splitLines, hc, ih2]

theorem noDD_cons (x : Char) (l : Str) (hx : x ≠ '-') (hl : noDD l = true) :
    noDD (x :: l) = true := by
  cases l with
  | nil => rfl
  | cons y tl =>
    simp only [noDD, Bool.and_eq_true, Bool.not_eq_true']
    exact ⟨by simp [hx], hl⟩

theorem noDD_tail (x : Char) (l : Str) (h : noDD (x :: l) = true) : noDD l = true := by
  cases l with
  | nil => rfl
  | cons y tl =>
    simp only [noDD, Bool.and_eq_true] at h
    exact h.2

theorem noDD_append_head (a b : Str) (ha : noDD a = true) (hb : noDD b = true)
    (hh : b.head? ≠ some '-') : noDD (a ++ b) = true := by
  induction a with
  | nil => simpa using hb
  | cons x tl ih =>
    cases tl with
    | nil =>
      cases b with
      | nil => rfl
      | cons y bs =>
        have hy : ¬(y = '-') := fun h => hh (by simp [h])
        simp only [List.singleton_append, noDD, Bool.and_eq_true, Bool.not_eq_true']
        exact ⟨by simp [hy], hb⟩
    | cons z tl2 =>
      simp only [noDD, Bool.and_eq_true] at ha
      simp only [List.cons_append, noDD, Bool.and_eq_true]
      refine ⟨ha.1, ?_⟩
      simpa using ih ha.2

theorem noDD_append_last (a b : Str) (ha : noDD a = true) (hb : noDD b = true)
    (hh : a.getLast? ≠ some '-') : noDD (a ++ b) = true := by
  induction a with
  | nil => simpa using hb
  | cons x tl ih =>
    cases tl with
    | nil =>
      have hx : x ≠ '-' := fun h => hh (by simp [h])
      simpa using noDD_cons x b hx hb
    | cons z tl2 =>
      simp only [noDD, Bool.and_eq_true] at ha
      simp only [List.cons_append, noDD, Bool.and_eq_true]
      refine ⟨ha.1, ?_⟩
      have hh2 : (z :: tl2).getLast? ≠ some '-' := by
        simpa [List.getLast?_cons_cons] using hh
      simpa using ih ha.2 hh2

theorem noDD_of_no_dash (l : Str) (h : ∀ c ∈ l, c ≠ '-') : noDD l = true := by
  induction l with
  | nil => rfl
  | cons x tl ih =>
    have hx : x ≠ '-' := h x (by simp)
    exact noDD_cons x tl hx (ih (fun c hc => h c (by simp [hc])))

theorem findSub_delim (Y rest : Str) (hY : noDD Y = true) (hlast : Y.getLast? = some '\n') :
    findSub DELIM (Y ++ ('-' :: '-' :: '-' :: rest)) = some Y.length := by
  induction Y with
  | nil => simp at hlast
  | cons x tl ih =>
    have hnp : DELIM.isPrefixOf (x :: (tl ++ ('-' :: '-' :: '-' :: rest))) = false := by
      cases tl with
      | nil =>
        have hx : x = '\n' := by simpa using hlast
        subst hx
        simp [DELIM, List.isPrefixOf]
      | cons y tl2 =>
        simp only [noDD, Bool.and_eq_true, Bool.not_eq_true', Bool.and_eq_false_iff] at hY
        have hno : ¬(x = '-' ∧ y = '-') := by
          rcases hY.1 with hx | hy
          · intro hc
            rw [hc.1] at hx
            simp at hx
          · intro hc
            rw [hc.2] at hy
            simp at hy
        by_cases hx : x = '-'
        · have hy : ¬('-' = y) := fun hc => hno ⟨hx, hc.symm⟩
          subst hx
          simp [DELIM, List.isPrefixOf, List.cons_append, hy]
        · have hx2 : ¬('-' = x) := fun hc => hx hc.symm
          simp [DELIM, List.isPrefixOf, List.cons_append, hx2]
    have htl : findSub DELIM (tl ++ ('-' :: '-' :: '-' :: rest)) = some tl.length := by
      cases tl with
      | nil => simp [findSub, DELIM, List.isPrefixOf]
      | cons y tl2 =>
        exact ih (noDD_tail x _ hY) (by simpa [List.getLast?_cons_cons] using hlast)
    simp only [List.cons_append, findSub, List.append_eq, hnp, Bool.false_eq_true, if_false,
      htl, Option.map_some', List.length_cons]

theorem digitChar_props (d : Nat) (h : d < 10) :
    (digitChar d).isDigit = true ∧ (digitChar d).toNat - 48 = d ∧
    digitChar d ≠ '\n' ∧ digitChar d ≠ '-' ∧ digitChar d ≠ ':' := by
  interval_cases d <;> exact ⟨by decide, by decide, by decide, by decide, by decide⟩

theorem natStrAux_digits (fuel : Nat) : ∀ n : Nat, n ≤ fuel →
    natStrAux fuel n = (Nat.digits 10 n).reverse.map digitChar := by
  induction fuel with
  | zero =>
    intro n hn
    interval_cases n
    simp [natStrAux]
  | succ f ih =>
    intro n hn
    by_cases h0 : n = 0
    · subst h0
      simp [natStrAux]
    · have hdiv : n / 10 ≤ f := by omega
      rw [natStrAux, if_neg h0, ih (n / 10) hdiv,
        Nat.digits_def' (by norm_num : (1 : Nat) < 10) (Nat.pos_of_ne_zero h0)]
      rw [List.reverse_cons, List.map_append, List.map_singleton]

theorem natStr_digits_chars (n : Nat) : ∀ c ∈ natStr n, c.isDigit = true := by
  intro c hc
  by_cases h0 : n = 0
  · subst h0
    have hc0 : c = '0' := by simpa [natStr] using hc
    subst hc0
    decide
  · rw [natStr, if_neg h0, natStrAux_digits (n + 1) n (by omega)] at hc
    rcases List.mem_map.mp hc with ⟨d, hd, he⟩
    have : d < 10 := Nat.digits_lt_base (by norm_num) (List.mem_reverse.mp hd)
    rw [← he]
    exact (digitChar_props d this).1

theorem natStr_no_nl (n : Nat) : '\n' ∉ natStr n := by
  intro hc
  have := natStr_digits_chars n '\n' hc
  simp at this

theorem natStr_no_dash (n : Nat) : ∀ c ∈ natStr n, c ≠ '-' := by
  intro c hc he
  have := natStr_digits_chars n c hc
  rw [he] at this
  simp at this

theorem natStr_ne_nil (n : Nat) : natStr n ≠ [] := by
  by_cases h0 : n = 0
  · subst h0
    simp [natStr]
  · rw [natStr, if_neg h0, natStrAux_digits (n + 1) n (by omega)]
    simp [Nat.digits_ne_nil_iff_ne_zero.mpr h0]

theorem foldr_ofDigits (L : List Nat) :
    L.foldr (fun d a => a * 10 + d) 0 = Nat.ofDigits 10 L := by
  induction L with
  | nil => simp [Nat.ofDigits]
  | cons d tl ih =>
    simp only [List.foldr_cons, ih, Nat.ofDigits_cons]
    omega

theorem parseNatAux_digits (ds : List Nat) : ∀ acc : Nat, (∀ d ∈ ds, d < 10) →
    parseNatAux (ds.map digitChar) acc =
      some (ds.foldl (fun a d => a * 10 + d) acc) := by
  induction ds with
  | nil => intro acc _; simp [parseNatAux]
  | cons d tl ih =>
    intro acc h
    have hd := h d (by simp)
    simp only [List.map_cons, parseNatAux, (digitChar_props d hd).1, if_pos,
      (digitChar_props d hd).2.1, List.foldl_cons]
    exact ih (acc * 10 + d) (fun x hx => h x (by simp [hx]))

theorem parseNat_natStr (n : Nat) : parseNat (natStr n) = some n := by
  by_cases h0 : n = 0
  · subst h0
    decide
  · rw [parseNat, if_neg (natStr_ne_nil n), natStr, if_neg h0,
      natStrAux_digits (n + 1) n (by omega)]
    have hds : ∀ d ∈ (Nat.digits 10 n).reverse, d < 10 :=
      fun d hd => Nat.digits_lt_base (by norm_num) (List.mem_reverse.mp hd)
    rw [parseNatAux_digits _ 0 hds]
    congr 1
    rw [List.foldl_reverse, foldr_ofDigits]
    exact Nat.ofDigits_digits 10 n

theorem statusOfStr_statusStr (st : Status) : statusOfStr (statusStr st) = some st := by
  cases st <;> decide

theorem chars_assignee : chars ("assignee") = ['a', 's', 's', 'i', 'g', 'n', 'e', 'e'] := by
  decide

theorem chars_branch : chars ("branch") = ['b', 'r', 'a', 'n', 'c', 'h'] := by decide

theorem chars_created : chars ("created") = ['c', 'r', 'e', 'a', 't', 'e', 'd'] := by decide

theorem chars_epic : chars ("epic") = ['e', 'p', 'i', 'c'] := by decide

theorem chars_id : chars ("id") = ['i', 'd'] := by decide

theorem chars_session : chars ("session") = ['s', 'e', 's', 's', 'i', 'o', 'n'] := by decide

theorem chars_status : chars ("status") = ['s', 't', 'a', 't', 'u', 's'] := by decide

theorem chars_depLabel :
    chars ("depends_on:") = ['d', 'e', 'p', 'e', 'n', 'd', 's', '_', 'o', 'n', ':'] := by
  decide

theorem chars_dashsp : chars ("- ") = ['-', ' '] := by decide

theorem splitKV_mk (k v : Str) (hk : ∀ c ∈ k, c ≠ ':') :
    splitKV (k ++ ':' :: ' ' :: v) = some (k, v) := by
  unfold splitKV
  rw [dropWhile_append_mid _ k ':' (' ' :: v)
      (fun c hc => by simpa using hk c hc) (by simp),
    takeWhile_append_mid _ k ':' (' ' :: v)
      (fun c hc => by simpa using hk c hc) (by simp)]
  rfl

theorem decodeLines_blank (rest : List Str) (p : PartIssue) (inSeq : Bool) :
    decodeLines ([] :: rest) p inSeq = decodeLines rest p inSeq := by
  simp [decodeLines]

theorem decodeLines_kv_assignee (v : Str) (rest : List Str) (p : PartIssue) (inSeq : Bool) :
    decodeLines ((['a', 's', 's', 'i', 'g', 'n', 'e', 'e'] ++ ':' :: ' ' :: v) :: rest) p inSeq =
      decodeLines rest { p with assignee := some v } false := by
  have hkv := splitKV_mk ['a', 's', 's', 'i', 'g', 'n', 'e', 'e'] v (by decide)
  simp only [List.cons_append, List.nil_append] at hkv
  simp [decodeLines, hkv, applyKV, List.isPrefixOf, chars_assignee, chars_depLabel, chars_dashsp]

theorem decodeLines_kv_branch (v : Str) (rest : List Str) (p : PartIssue) (inSeq : Bool) :
    decodeLines ((['b', 'r', 'a', 'n', 'c', 'h'] ++ ':' :: ' ' :: v) :: rest) p inSeq =
      decodeLines rest { p with branch := some v } false := by
  have hkv := splitKV_mk ['b', 'r', 'a', 'n', 'c', 'h'] v (by decide)
  simp only [List.cons_append, List.nil_append] at hkv
  simp [decodeLines, hkv, applyKV, List.isPrefixOf, chars_assignee, chars_branch,
    chars_depLabel, chars_dashsp]

theorem decodeLines_kv_created (v : Str) (rest : List Str) (p : PartIssue) (inSeq : Bool) :
    decodeLines ((['c', 'r', 'e', 'a', 't', 'e', 'd'] ++ ':' :: ' ' :: v) :: rest) p inSeq =
      decodeLines rest { p with created := some v } false := by
  have hkv := splitKV_mk ['c', 'r', 'e', 'a', 't', 'e', 'd'] v (by decide)
  simp only [List.cons_append, List.nil_append] at hkv
  simp [decodeLines, hkv, applyKV, List.isPrefixOf, chars_assignee, chars_branch,
    chars_created, chars_depLabel, chars_dashsp]

theorem decodeLines_kv_epic (v : Str) (rest : List Str) (p : PartIssue) (inSeq : Bool) :
    decodeLines ((['e', 'p', 'i', 'c'] ++ ':' :: ' ' :: v) :: rest) p inSeq =
      decodeLines rest { p with epic := some v } false := by
  have hkv := splitKV_mk ['e', 'p', 'i', 'c'] v (by decide)
  simp only [List.cons_append, List.nil_append] at hkv
  simp [decodeLines, hkv, applyKV, List.isPrefixOf, chars_assignee, chars_branch,
    chars_created, chars_epic, chars_depLabel, chars_dashsp]

theorem decodeLines_kv_id (n : Nat) (rest : List Str) (p : PartIssue) (inSeq : Bool) :
    decodeLines ((['i', 'd'] ++ ':' :: ' ' :: natStr n) :: rest) p inSeq =
      decodeLines rest { p with id := some n } false := by
  have hkv := splitKV_mk ['i', 'd'] (natStr n) (by decide)
  simp only [List.cons_append, List.nil_append] at hkv
  simp [decodeLines, hkv, applyKV, List.isPrefixOf, chars_assignee, chars_branch,
    chars_created, chars_epic, chars_id, chars_depLabel, chars_dashsp, parseNat_natStr]

theorem decodeLines_kv_session (v : Str) (rest : List Str) (p : PartIssue) (inSeq : Bool) :
    decodeLines ((['s', 'e', 's', 's', 'i', 'o', 'n'] ++ ':' :: ' ' :: v) :: rest) p inSeq =
      decodeLines rest { p with session := some v } false := by
  have hkv := splitKV_mk ['s', 'e', 's', 's', 'i', 'o', 'n'] v (by decide)
  simp only [List.cons_append, List.nil_append] at hkv
  simp [decodeLines, hkv, applyKV, List.isPrefixOf, chars_assignee, chars_branch,
    chars_created, chars_epic, chars_id, chars_session, chars_depLabel, chars_dashsp]

theorem decodeLines_kv_status (st : Status) (rest : List Str) (p : PartIssue) (inSeq : Bool) :
    decodeLines ((['s', 't', 'a', 't', 'u', 's'] ++ ':' :: ' ' :: statusStr st) :: rest) p inSeq =
      decodeLines rest { p with status := some st } false := by
  have hkv := splitKV_mk ['s', 't', 'a', 't', 'u', 's'] (statusStr st) (by
    cases st <;> decide)
  simp only [List.cons_append, List.nil_append] at hkv
  simp [decodeLines, hkv, applyKV, List.isPrefixOf, chars_assignee, chars_branch,
    chars_created, chars_epic, chars_id, chars_session, chars_status, chars_depLabel,
    chars_dashsp, statusOfStr_statusStr]

theorem decodeLines_depLabel (rest : List Str) (p : PartIssue) (inSeq : Bool) :
    decodeLines (['d', 'e', 'p', 'e', 'n', 'd', 's', '_', 'o', 'n', ':'] :: rest) p inSeq =
      decodeLines rest { p with depends_on := [] } true := by
  simp [decodeLines, chars_depLabel]

theorem decodeLines_depItem (d : Nat) (rest : List Str) (p : PartIssue) :
    decodeLines (('-' :: ' ' :: natStr d) :: rest) p true =
      decodeLines rest { p with depends_on := p.depends_on ++ [d] } true := by
  simp [decodeLines, chars_depLabel, chars_dashsp, List.isPrefixOf, parseNat_natStr]

theorem splitLines_lineKV (key : String) (v : Str) (rest : Str)
    (hk : '\n' ∉ key.data) (hv : '\n' ∉ v) :
    splitLines (lineKV key v ++ rest) = (key.data ++ ':' :: ' ' :: v) :: splitLines rest := by
  have hsh : lineKV key v ++ rest = (key.data ++ ':' :: ' ' :: v) ++ '\n' :: rest := by
    simp [lineKV]
  have hnl : '\n' ∉ (key.data ++ ':' :: ' ' :: v) := by
    intro hc
    rcases List.mem_append.mp hc with hc | hc
    · exact hk hc
    · simp only [List.mem_cons] at hc
      rcases hc with hc | hc | hc
      · exact absurd hc (by decide)
      · exact absurd hc (by decide)
      · exact hv hc
  rw [hsh, splitLines_line _ _ hnl]

theorem splitLines_optLineKV (key : String) (o : Option Str) (rest : Str)
    (hk : '\n' ∉ key.data) (ho : ∀ v, o = some v → '\n' ∉ v) :
    splitLines (optLineKV key o ++ rest) = optKVLines key.data o ++ splitLines rest := by
  cases o with
  | none => simp [optLineKV, optKVLines]
  | some v =>
    rw [optLineKV, splitLines_lineKV key v rest hk (ho v rfl)]
    simp [optKVLines]

theorem splitLines_depItems (l : List Nat) (rest : Str) :
    splitLines (l.flatMap depItemLine ++ rest) =
      l.map (fun x => '-' :: ' ' :: natStr x) ++ splitLines rest := by
  induction l with
  | nil => simp
  | cons d tl ih =>
    have hsh : depItemLine d ++ (tl.flatMap depItemLine ++ rest) =
        ('-' :: ' ' :: natStr d) ++ '\n' :: (tl.flatMap depItemLine ++ rest) := by
      simp [depItemLine]
    have hnl : '\n' ∉ ('-' :: ' ' :: natStr d) := by
      intro hc
      simp only [List.mem_cons] at hc
      rcases hc with hc | hc | hc
      · exact absurd hc (by decide)
      · exact absurd hc (by decide)
      · exact natStr_no_nl d hc
    rw [List.flatMap_cons, List.append_assoc, hsh, splitLines_line _ _ hnl, ih]
    simp

theorem splitLines_depLines (ds : List Nat) (rest : Str) :
    splitLines (depLines ds ++ rest) = depLL ds ++ splitLines rest := by
  cases ds with
  | nil => simp [depLines, depLL]
  | cons d tl =>
    have hsh : depLines (d :: tl) ++ rest =
        chars ("depends_on:") ++ '\n' :: ((d :: tl).flatMap depItemLine ++ rest) := by
      simp [depLines]
    rw [hsh, splitLines_line _ _ (by decide), splitLines_depItems]
    simp [depLL, chars_depLabel]

theorem splitLines_yamlEncode (i : Issue) (hp : PlainIssue i) :
    splitLines (yamlEncode i) =
      optKVLines (chars ("assignee")) i.assignee ++
      (optKVLines (chars ("branch")) i.branch ++
      ((chars ("created") ++ ':' :: ' ' :: i.created) ::
      (depLL i.depends_on ++
      (optKVLines (chars ("epic")) i.epic ++
      ((chars ("id") ++ ':' :: ' ' :: natStr i.id) ::
      (optKVLines (chars ("session")) i.session ++
      [chars ("status") ++ ':' :: ' ' :: statusStr i.status])))))) := by
  obtain ⟨hpa, hpb, hpe, hps, hpc⟩ := hp
  have hstat : '\n' ∉ statusStr i.status := by
    cases i.status <;> decide
  rw [yamlEncode]
  simp only [List.append_assoc]
  rw [splitLines_optLineKV ("assignee") i.assignee _ (by decide)
      (fun v hv => (hpa v hv).2.2),
    splitLines_optLineKV ("branch") i.branch _ (by decide)
      (fun v hv => (hpb v hv).2.2),
    splitLines_lineKV ("created") i.created _ (by decide) hpc.2.2,
    splitLines_depLines,
    splitLines_optLineKV ("epic") i.epic _ (by decide)
      (fun v hv => (hpe v hv).2.2),
    splitLines_lineKV ("id") (natStr i.id) _ (by decide) (natStr_no_nl i.id),
    splitLines_optLineKV ("session") i.session _ (by decide)
      (fun v hv => (hps v hv).2.2)]
  rw [show lineKV ("status") (statusStr i.status) =
      lineKV ("status") (statusStr i.status) ++ [] by simp,
    splitLines_lineKV ("status") (statusStr i.status) [] (by decide) hstat]
  rfl

theorem decodeLines_optSeg_assignee (o : Option Str) (rest : List Str) (p : PartIssue)
    (inSeq : Bool) :
    decodeLines (optKVLines (chars ("assignee")) o ++ rest) p inSeq =
      decodeLines rest { p with assignee := o.elim p.assignee some }
        (o.elim inSeq (fun _ => false)) := by
  cases o with
  | none => rfl
  | some v =>
    simp only [optKVLines, chars_assignee, List.singleton_append, Option.elim]
    exact decodeLines_kv_assignee v rest p inSeq

theorem decodeLines_optSeg_branch (o : Option Str) (rest : List Str) (p : PartIssue)
    (inSeq : Bool) :
    decodeLines (optKVLines (chars ("branch")) o ++ rest) p inSeq =
      decodeLines rest { p with branch := o.elim p.branch some }
        (o.elim inSeq (fun _ => false)) := by
  cases o with
  | none => rfl
  | some v =>
    simp only [optKVLines, chars_branch, List.singleton_append, Option.elim]
    exact decodeLines_kv_branch v rest p inSeq

theorem decodeLines_optSeg_epic (o : Option Str) (rest : List Str) (p : PartIssue)
    (inSeq : Bool) :
    decodeLines (optKVLines (chars ("epic")) o ++ rest) p inSeq =
      decodeLines rest { p with epic := o.elim p.epic some }
        (o.elim inSeq (fun _ => false)) := by
  cases o with
  | none => rfl
  | some v =>
    simp only [optKVLines, chars_epic, List.singleton_append, Option.elim]
    exact decodeLines_kv_epic v rest p inSeq

theorem decodeLines_optSeg_session (o : Option Str) (rest : List Str) (p : PartIssue)
    (inSeq : Bool) :
    decodeLines (optKVLines (chars ("session")) o ++ rest) p inSeq =
      decodeLines rest { p with session := o.elim p.session some }
        (o.elim inSeq (fun _ => false)) := by
  cases o with
  | none => rfl
  | some v =>
    simp only [optKVLines, chars_session, List.singleton_append, Option.elim]
    exact decodeLines_kv_session v rest p inSeq

theorem decodeLines_depItemsSeg (l : List Nat) (rest : List Str) (p : PartIssue) :
    ∀ acc : List Nat,
      decodeLines (l.map (fun x => '-' :: ' ' :: natStr x) ++ rest)
        { p with depends_on := acc } true =
      decodeLines rest { p with depends_on := acc ++ l } true := by
  induction l with
  | nil => intro acc; simp
  | cons d tl ih =>
    intro acc
    simp only [List.map_cons, List.cons_append]
    rw [decodeLines_depItem]
    have hcollapse :
        { { p with depends_on := acc } with
            depends_on := ({ p with depends_on := acc }).depends_on ++ [d] } =
          { p with depends_on := acc ++ [d] } := rfl
    rw [hcollapse, ih (acc ++ [d])]
    simp

theorem decodeLines_depSeg (ds : List Nat) (rest : List Str) (p : PartIssue) (inSeq : Bool)
    (hp0 : p.depends_on = []) :
    decodeLines (depLL ds ++ rest) p inSeq =
      decodeLines rest { p with depends_on := ds }
        (if ds.isEmpty then inSeq else true) := by
  cases ds with
  | nil =>
    have : { p with depends_on := ([] : List Nat) } = p := by
      rw [← hp0]
    simp [depLL, this]
  | cons d tl =>
    simp only [depLL, List.cons_append, List.isEmpty_cons, if_neg]
    rw [decodeLines_depLabel, decodeLines_depItemsSeg (d :: tl) rest p []]
    simp

/-- `Option.elim none some` is the identity. -/
theorem opt_elim_id {α : Type} (o : Option α) : o.elim none some = o := by
  cases o <;> rfl

theorem yamlDecode_yamlEncode (i : Issue) (hp : PlainIssue i) :
    yamlDecode ('\n' :: yamlEncode i) = some i := by
  unfold yamlDecode
  rw [show splitLines ('\n' :: yamlEncode i) = [] :: splitLines (yamlEncode i) by
      simp [splitLines],
    decodeLines_blank, splitLines_yamlEncode i hp,
    decodeLines_optSeg_assignee, decodeLines_optSeg_branch]
  rw [show (chars ("created") ++ ':' :: ' ' :: i.created) =
      (['c', 'r', 'e', 'a', 't', 'e', 'd'] ++ ':' :: ' ' :: i.created) by rw [chars_created]]
  rw [decodeLines_kv_created, decodeLines_depSeg _ _ _ _ rfl, decodeLines_optSeg_epic]
  rw [show (chars ("id") ++ ':' :: ' ' :: natStr i.id) =
      (['i', 'd'] ++ ':' :: ' ' :: natStr i.id) by rw [chars_id]]
  rw [decodeLines_kv_id, decodeLines_optSeg_session]
  rw [show (chars ("status") ++ ':' :: ' ' :: statusStr i.status) =
      (['s', 't', 'a', 't', 'u', 's'] ++ ':' :: ' ' :: statusStr i.status) by rw [chars_status]]
  rw [decodeLines_kv_status]
  simp only [decodeLines, finalizePart, opt_elim_id]

theorem segOk_nil : SegOk [] := ⟨rfl, by simp⟩

theorem segOk_append (a b : Str) (ha : SegOk a) (hb : SegOk b) : SegOk (a ++ b) := by
  refine ⟨noDD_append_last a b ha.1 hb.1 ha.2, ?_⟩
  rw [List.getLast?_append]
  rcases hbl : b.getLast? with _ | y
  · simpa using ha.2
  · have := hb.2
    rw [hbl] at this
    simpa using this

theorem getLast?_append_nl (v : Str) : (v ++ ['\n']).getLast? = some '\n' := by
  simp [List.getLast?_append]

theorem getLast?_lineKV (key : String) (v : Str) :
    (lineKV key v).getLast? = some '\n' := by
  simp [lineKV, List.getLast?_append, List.getLast?_cons_cons, List.getLast?_cons,
    List.getLast?_concat]

theorem segOk_lineKV (key : String) (v : Str)
    (hkey : noDD key.data = true) (hv : noDD v = true) :
    SegOk (lineKV key v) := by
  have h1 : noDD (v ++ ['\n']) = true :=
    noDD_append_head v ['\n'] hv rfl (by simp)
  have h2 : noDD (':' :: ' ' :: (v ++ ['\n'])) = true :=
    noDD_cons ':' _ (by decide) (noDD_cons ' ' _ (by decide) h1)
  constructor
  · have hsh : lineKV key v = key.data ++ (':' :: ' ' :: (v ++ ['\n'])) := by simp [lineKV]
    rw [hsh]
    exact noDD_append_head _ _ hkey h2 (by simp)
  · rw [getLast?_lineKV]
    simp

theorem segOk_optLineKV (key : String) (o : Option Str)
    (hkey : noDD key.data = true) (ho : ∀ v, o = some v → noDD v = true) :
    SegOk (optLineKV key o) := by
  cases o with
  | none => exact segOk_nil
  | some v => exact segOk_lineKV key v hkey (ho v rfl)

theorem segOk_depItemLine (d : Nat) : SegOk (depItemLine d) := by
  have hnat : noDD (natStr d) = true := noDD_of_no_dash _ (natStr_no_dash d)
  have h1 : noDD (natStr d ++ ['\n']) = true :=
    noDD_append_head _ _ hnat rfl (by simp)
  have h2 : noDD (' ' :: (natStr d ++ ['\n'])) = true := noDD_cons ' ' _ (by decide) h1
  constructor
  · simpa [depItemLine, noDD] using h2
  · simp only [depItemLine, List.getLast?_cons_cons, List.getLast?_cons, List.getLast?_concat,
      Option.getD_some]
    decide

theorem segOk_depItems (l : List Nat) : SegOk (l.flatMap depItemLine) := by
  induction l with
  | nil => exact segOk_nil
  | cons d tl ih =>
    rw [List.flatMap_cons]
    exact segOk_append _ _ (segOk_depItemLine d) ih

theorem segOk_depLines (ds : List Nat) : SegOk (depLines ds) := by
  cases ds with
  | nil => exact segOk_nil
  | cons d tl =>
    have hitems := segOk_depItems (d :: tl)
    have hb : SegOk ('\n' :: (d :: tl).flatMap depItemLine) := by
      refine ⟨noDD_cons '\n' _ (by decide) hitems.1, ?_⟩
      rcases hl : ((d :: tl).flatMap depItemLine).getLast? with _ | y
      · simp only [List.getLast?_cons, hl, Option.getD_none]
        decide
      · have h2 := hitems.2
        rw [hl] at h2
        have hy : y ≠ '-' := fun hc => h2 (by rw [hc])
        simp only [List.getLast?_cons, hl, Option.getD_some]
        intro hc
        exact hy (by injection hc)
    have := segOk_append (chars ("depends_on:")) ('\n' :: (d :: tl).flatMap depItemLine)
      ⟨by decide, by decide⟩ hb
    simpa [depLines] using this

theorem segOk_yamlEncode (i : Issue) (hp : PlainIssue i) : SegOk (yamlEncode i) := by
  obtain ⟨hpa, hpb, hpe, hps, hpc⟩ := hp
  have hstat : noDD (statusStr i.status) = true := by
    cases i.status <;> decide
  unfold yamlEncode
  simp only [List.append_assoc]
  refine segOk_append _ _ (segOk_optLineKV _ _ (by decide) (fun v hv => (hpa v hv).2.1)) ?_
  refine segOk_append _ _ (segOk_optLineKV _ _ (by decide) (fun v hv => (hpb v hv).2.1)) ?_
  refine segOk_append _ _ (segOk_lineKV _ _ (by decide) hpc.2.1) ?_
  refine segOk_append _ _ (segOk_depLines _) ?_
  refine segOk_append _ _ (segOk_optLineKV _ _ (by decide) (fun v hv => (hpe v hv).2.1)) ?_
  refine segOk_append _ _ (segOk_lineKV _ _ (by decide)
    (noDD_of_no_dash _ (natStr_no_dash i.id))) ?_
  refine segOk_append _ _ (segOk_optLineKV _ _ (by decide) (fun v hv => (hps v hv).2.1)) ?_
  exact segOk_lineKV _ _ (by decide) hstat

theorem yamlEncode_getLast (i : Issue) : (yamlEncode i).getLast? = some '\n' := by
  unfold yamlEncode
  simp [List.getLast?_append, getLast?_lineKV]

theorem chars_delim : chars ("---") = ['-', '-', '-'] := by decide

theorem chars_hashsp : chars ("# ") = ['#', ' '] := by decide

theorem parseIssue_shape (i : Issue) (title rest2 : Str) (hp : PlainIssue i)
    (ht : '\n' ∉ title) :
    parseIssue ('-' :: '-' :: '-' :: (('\n' :: yamlEncode i) ++
        ('-' :: '-' :: '-' :: ('\n' :: '\n' :: '#' :: ' ' :: (title ++ '\n' :: rest2))))) =
      .ok (i, title, rest2.dropWhile (· = '\n')) := by
  have hnoDD : noDD ('\n' :: yamlEncode i) = true :=
    noDD_cons '\n' _ (by decide) (segOk_yamlEncode i hp).1
  have hlast : ('\n' :: yamlEncode i).getLast? = some '\n' := by
    rw [List.getLast?_cons, yamlEncode_getLast]
    rfl
  have hfind := findSub_delim ('\n' :: yamlEncode i)
    ('\n' :: '\n' :: '#' :: ' ' :: (title ++ '\n' :: rest2)) hnoDD hlast
  have htake := List.take_left ('\n' :: yamlEncode i)
    ('-' :: '-' :: '-' :: ('\n' :: '\n' :: '#' :: ' ' :: (title ++ '\n' :: rest2)))
  have hdec := yamlDecode_yamlEncode i hp
  have hdropbig : List.drop (3 + ('\n' :: yamlEncode i).length + 3)
      ('-' :: '-' :: '-' :: (('\n' :: yamlEncode i) ++
        ('-' :: '-' :: '-' :: ('\n' :: '\n' :: '#' :: ' ' :: (title ++ '\n' :: rest2))))) =
      '\n' :: '\n' :: '#' :: ' ' :: (title ++ '\n' :: rest2) := by
    have hre : ('-' :: '-' :: '-' :: (('\n' :: yamlEncode i) ++
        ('-' :: '-' :: '-' :: ('\n' :: '\n' :: '#' :: ' ' :: (title ++ '\n' :: rest2))))) =
        (['-', '-', '-'] ++ ('\n' :: yamlEncode i) ++ ['-', '-', '-']) ++
          ('\n' :: '\n' :: '#' :: ' ' :: (title ++ '\n' :: rest2)) := by
      simp
    rw [hre, show 3 + ('\n' :: yamlEncode i).length + 3 =
      (['-', '-', '-'] ++ ('\n' :: yamlEncode i) ++ ['-', '-', '-']).length by simp; omega]
    exact List.drop_left _ _
  have htw := takeWhile_append_mid (fun c => decide (c ≠ '\n')) title '\n' rest2
    (fun c hc => by
      simp only [decide_eq_true_eq]
      intro he
      exact ht (he ▸ hc)) (by simp)
  have hdw := dropWhile_append_mid (fun c => decide (c ≠ '\n')) title '\n' rest2
    (fun c hc => by
      simp only [decide_eq_true_eq]
      intro he
      exact ht (he ▸ hc)) (by simp)
  simp only [parseIssue]
  rw [show trimStart ('-' :: '-' :: '-' :: (('\n' :: yamlEncode i) ++
      ('-' :: '-' :: '-' :: ('\n' :: '\n' :: '#' :: ' ' :: (title ++ '\n' :: rest2))))) =
      ('-' :: '-' :: '-' :: (('\n' :: yamlEncode i) ++
      ('-' :: '-' :: '-' :: ('\n' :: '\n' :: '#' :: ' ' :: (title ++ '\n' :: rest2)))))
    by simp [trimStart]]
  rw [show DELIM.isPrefixOf ('-' :: '-' :: '-' :: (('\n' :: yamlEncode i) ++
      ('-' :: '-' :: '-' :: ('\n' :: '\n' :: '#' :: ' ' :: (title ++ '\n' :: rest2))))) = true
    by simp [DELIM, List.isPrefixOf]]
  simp only [if_true, List.drop_succ_cons, List.drop_zero, hfind, htake, hdec, hdropbig]
  rw [show List.dropWhile (fun x => decide (x = '\n'))
      ('\n' :: '\n' :: '#' :: ' ' :: (title ++ '\n' :: rest2)) =
      '#' :: ' ' :: (title ++ '\n' :: rest2) by simp]
  simp only [extractTitleHeading, chars_hashsp]
  rw [show List.isPrefixOf ['#', ' '] ('#' :: ' ' :: (title ++ '\n' :: rest2)) = true by
    simp [List.isPrefixOf]]
  simp only [if_true, List.drop_succ_cons, List.drop_zero, htw, hdw]
  simp

/-- Claim C3 (amended): the round trip `parse_issue (format_issue R title body)`
returns `R`, the title and the body unchanged, provided the title contains no
newline, the body is empty or (does not begin with a newline and ends with
one), and the record's string fields are plain scalars (nonempty, no newline,
no double dash — the domain in which the modelled serde_yaml emits unquoted
scalar lines). Outside these conditions the body comes back newline-normalized
(see the counterexample). -/
theorem c3_roundtrip (i : Issue) (title body : Str)
    (ht : '\n' ∉ title)
    (hb : body = [] ∨ (body.head? ≠ some '\n' ∧ body.getLast? = some '\n'))
    (hp : PlainIssue i) :
    parseIssue (formatIssue i title body) = .ok (i, title, body) := by
  rcases hb with hb0 | ⟨hbh, hbl⟩
  · subst hb0
    have hsh : formatIssue i title [] =
        ('-' :: '-' :: '-' :: (('\n' :: yamlEncode i) ++
          ('-' :: '-' :: '-' :: ('\n' :: '\n' :: '#' :: ' ' :: (title ++ '\n' :: []))))) := by
      simp [formatIssue, chars_delim]
    rw [hsh, parseIssue_shape i title [] hp ht]
    rfl
  · have hne : body ≠ [] := by
      rintro rfl
      simp at hbl
    have hsh : formatIssue i title body =
        ('-' :: '-' :: '-' :: (('\n' :: yamlEncode i) ++
          ('-' :: '-' :: '-' ::
            ('\n' :: '\n' :: '#' :: ' ' :: (title ++ '\n' :: ('\n' :: body)))))) := by
      simp [formatIssue, chars_delim, hne, hbl]
    rw [hsh, parseIssue_shape i title ('\n' :: body) hp ht]
    cases body with
    | nil => exact absurd rfl hne
    | cons c bt =>
      have hc : ¬(c = '\n') := fun he => hbh (by simp [he])
      simp [List.dropWhile_cons, hc]

/-- Claim C3 (amended) witness: the all-fields-present record round-trips with
a unicode title and a newline-terminated body. -/
theorem c3_roundtrip_witness :
    parseIssue (formatIssue iW (chars ("Tëst titlé")) (chars ("Böd y.\n"))) =
      .ok (iW, chars ("Tëst titlé"), chars ("Böd y.\n")) :=
  c3_roundtrip iW (chars ("Tëst titlé")) (chars ("Böd y.\n")) (by decide)
    (Or.inr ⟨by decide, by decide⟩)
    ⟨fun v hv => by cases hv; exact ⟨by decide, by decide, by decide⟩,
     fun v hv => by cases hv; exact ⟨by decide, by decide, by decide⟩,
     fun v hv => by cases hv; exact ⟨by decide, by decide, by decide⟩,
     fun v hv => by cases hv; exact ⟨by decide, by decide, by decide⟩,
     ⟨by decide, by decide, by decide⟩⟩

end Itack
